import Mathlib

/-!
Verification of the redscript compiler frontend against its specification.

This file gives a shallow embedding, in Lean 4, of the parts of the
redscript frontend that the specification talks about:

* the type environment and the type resolver
  (crates/compiler/frontend/src/lower/env.rs),
* the lowering error taxonomy (crates/compiler/frontend/src/lower/error.rs),
* the binary-operator table and the precedence climber
  (crates/syntax/ast/src/ast.rs and crates/syntax/parser/src/parser/expr.rs),
* the source map and file position lookup (crates/syntax/ast/src/files.rs),
* the local-variable tracker and closure captures
  (crates/compiler/frontend/src/lower/env.rs).

Rust machine integers are modelled as Nat with explicit reduction modulo
2 to the width where overflow matters; fallible Rust code is modelled with
Option and Except.  Where a needed definition lives in a module that is not
part of the sources at hand, the Lean definition is marked
`Modelled from the spec:` in its doc comment and follows the wording of the
specification.
-/

namespace Redscript

/-- Modelled from the spec: a Span is a half-open byte range tagged with a
FileId, a signed integer (redscript_ast::span, whose source file is not in
the sources at hand).  The field named end in Rust is stop here because
end is a Lean keyword. -/
structure Span where
  start : Nat
  stop : Nat
  file : Int
deriving DecidableEq, Repr

/-- Modelled from the spec: the union of two spans of one file is the
enclosing range (used by the precedence climber via lhs.1.union(rhs.1);
spans of distinct files are never unioned). -/
def Span.union (a b : Span) : Span :=
  { start := min a.start b.start, stop := max a.stop b.stop, file := a.file }

/-! ## Type identifiers, internal types and the error taxonomy -/

/-- Modelled from the spec: TypeId is an interned identifier for a type
constructor - predefined, user-declared, or synthesised for a fixed-arity
function type or a fixed-size array type (crate::types, not in the sources
at hand). -/
inductive TypeId where
  | predefined (name : String)
  | user (name : String)
  | fnType (arity : Nat)
  | arrayWithSize (size : Nat)
deriving DecidableEq, Repr

namespace predef

def ARRAY : TypeId := .predefined "array"

def REF : TypeId := .predefined "ref"

def WREF : TypeId := .predefined "wref"

def SCRIPT_REF : TypeId := .predefined "script_ref"

end predef

/-- Modelled from the spec: the arity and size limits MAX_FN_ARITY and
MAX_STATIC_ARRAY_SIZE are constants of crate::types (not in the sources at
hand); their numeric values are left as parameters. -/
structure Limits where
  MAX_FN_ARITY : Nat
  MAX_STATIC_ARRAY_SIZE : Nat

/-- Modelled from the spec: fn_with_arity(n) returns the id for an
n-parameter function, or fails if n exceeds MAX_FN_ARITY. -/
def TypeId.fn_with_arity (lim : Limits) (n : Nat) : Option TypeId :=
  if n ≤ lim.MAX_FN_ARITY then some (.fnType n) else none

/-- Modelled from the spec: array_with_size(n) returns the id for a static
array of size n, or fails if n exceeds MAX_STATIC_ARRAY_SIZE. -/
def TypeId.array_with_size (lim : Limits) (n : Nat) : Option TypeId :=
  if n ≤ lim.MAX_STATIC_ARRAY_SIZE then some (.arrayWithSize n) else none

/-- Declaration-site variance of a type parameter (ast.rs). -/
inductive Variance where
  | Covariant
  | Contravariant
  | Invariant
deriving DecidableEq, Repr

mutual

/-- Modelled from the spec: an internal type is an application of a TypeId
to zero or more type arguments, or a context variable
(crate::types::Type, not in the sources at hand). -/
inductive Typ where
  | app (id : TypeId) (args : List Typ)
  | Ctx (v : CtxVar)

/-- Modelled from the spec: a context variable is a declaration-site type
parameter with a name, a variance, an optional lower bound and an optional
upper bound (crate::types::CtxVar, not in the sources at hand). -/
inductive CtxVar where
  | mk (name : String) (variance : Variance) (lower : Option Typ)
      (upper : Option Typ)

end

/-- Modelled from the spec: the downstream inference types (lower/types.rs)
are outside the scope of the specification; they are carried opaquely by
the error taxonomy and never inspected. -/
inductive InferredType where
  | mk

/-- Modelled from the spec: opaque stand-in for InferredTypeApp, see
InferredType. -/
inductive InferredTypeApp where
  | mk

/-- An inclusive range of argument counts (std::ops::RangeInclusive of
usize), carried by Error::InvalidArgCount. -/
structure RangeInclusive where
  start : Nat
  stop : Nat
deriving DecidableEq, Repr

/-- The nested unification error (error.rs, enum TypeError). -/
inductive TypeError where
  | Mismatch (found expected : InferredType)
  | Incompatible (a b : InferredTypeApp)
  | CannotUnify (a b : InferredType)
  | Nested (inner : TypeError) (a b : InferredType)

/-- The lowering error taxonomy (error.rs, enum Error). -/
inductive Error where
  | Type (err : TypeError) (span : Span)
  | UnresolvedVar (name : String) (span : Span)
  | UnresolvedType (name : String) (span : Span)
  | UnresolvedMember (typ : TypeId) (name : String) (span : Span)
  | MultipleMatchingOverloads (name : String) (count : Nat) (span : Span)
  | UnresolvedFunction (name : String) (span : Span)
  | InvalidArgCount (range : RangeInclusive) (span : Span)
  | InsufficientTypeInformation (span : Span)
  | InvalidNewType (span : Span)
  | InvalidDynCastType (span : Span)
  | UnknownStaticCastType (span : Span)
  | InvalidTypeArgCount (count : Nat) (span : Span)
  | ClassConstructorHasArguments (span : Span)
  | UnsupportedArity (span : Span)
  | UnsupportedStaticArraySize (span : Span)
  | InvalidCaseLabel (span : Span)
  | CyclicType (span : Span)
  | LiteralOutOfRange (typ : TypeId) (span : Span)
  | WrongStringLiteral (typ : TypeId) (c : Char) (span : Span)
  | InstantiatingAbstract (typ : TypeId) (span : Span)
  | NonExistentSuperType (span : Span)
  | InvalidPlaceExpr (span : Span)
  | InvalidTemporary (span : Span)
  | UnexpectedNonConstant (span : Span)
  | DeprecatedNameOf (span : Span)
  | NonSealedStructConstruction (typ : TypeId) (span : Span)
  | MissingBreakInCaseLet (span : Span)

/-- LowerResult from error.rs, specialised to the lowering Error. -/
abbrev LowerResult (α : Type) := Except Error α

/-! ## The type environment -/

/-- The value stored in the type environment for a name (env.rs, enum
TypeRef).  The LazyVar variant holds a memoised suspension living in
utils::Lazy (not in the sources at hand); for the resolver it is modelled
by the observable outcome of forcing it against the current environment:
none models a reentrant force (the cell is found in progress), and
some r the memoised or computed result r of the thunk.  The dynamics of
the cell itself are modelled separately (see the LazyForce namespace). -/
inductive TypeRef where
  | Name (id : TypeId)
  | Var (v : CtxVar)
  | LazyVar (outcome : Option (LowerResult CtxVar))

/-- Modelled from the spec: utils::ScopedMap (not in the sources at hand)
is a stack of insertion-ordered maps; lookups search inside-out, the head
of the list being the innermost scope. -/
abbrev ScopedMap (α : Type) := List (List (String × α))

/-- Inside-out lookup of a ScopedMap. -/
def ScopedMap.get {α : Type} : ScopedMap α → String → Option α
  | [], _ => none
  | scope :: rest, name =>
    match List.lookup name scope with
    | some v => some v
    | none => ScopedMap.get rest name

/-- The type environment: a scoped map from source-level type names to type
references (env.rs, struct TypeEnv). -/
structure TypeEnv where
  scopes : ScopedMap TypeRef

/-- TypeEnv::get (env.rs). -/
def TypeEnv.get (env : TypeEnv) (name : String) : Option TypeRef :=
  env.scopes.get name

/-- TypeEnv::with_default_types (env.rs): the predefined bindings. -/
def TypeEnv.with_default_types : TypeEnv :=
  { scopes := [[("array", .Name predef.ARRAY), ("ref", .Name predef.REF),
               ("wref", .Name predef.WREF),
               ("script_ref", .Name predef.SCRIPT_REF)]] }

/-- TypeEnv::introduce_scope (env.rs): push a fresh empty innermost
scope. -/
def TypeEnv.introduce_scope (env : TypeEnv) : TypeEnv :=
  { scopes := [] :: env.scopes }

/-- TypeEnv::add (env.rs): insert into the innermost scope. -/
def TypeEnv.add (env : TypeEnv) (name : String) (typ : TypeRef) : TypeEnv :=
  match env.scopes with
  | [] => { scopes := [[(name, typ)]] }
  | scope :: rest => { scopes := ((name, typ) :: scope) :: rest }

/-! ## Source types and the resolver -/

mutual

/-- The source-level type syntax (ast.rs, enum Type, in its spanned form:
every child carries its span).  Spanned children are flattened into
constructor fields, and the argument lists are the mutual inductive
AstTypeArgs so that the resolver can recurse structurally. -/
inductive AstType where
  | Named (name : String) (args : AstTypeArgs)
  | Array (elem : AstType) (elemSpan : Span)
  | StaticArray (elem : AstType) (elemSpan : Span) (size : Nat)
  | Fn (params : AstTypeArgs) (returnType : AstType) (returnSpan : Span)

/-- A list of spanned source types (the Box of (Type, Span) pairs of
ast.rs). -/
inductive AstTypeArgs where
  | nil
  | cons (head : AstType) (span : Span) (tail : AstTypeArgs)

end

/-- Length of a spanned type-argument list. -/
def AstTypeArgs.length : AstTypeArgs → Nat
  | .nil => 0
  | .cons _ _ tail => tail.length + 1

mutual

/-- TypeEnv::resolve (env.rs, lines 115-165): resolve a source type against
the environment, producing an internal type or a lowering error. -/
def TypeEnv.resolve (env : TypeEnv) (lim : Limits) :
    AstType → Span → LowerResult Typ
  | .Named name (.cons arg argSpan .nil), span =>
    match env.get name with
    | some (.Name id) =>
      if id = predef.REF then
        env.resolve lim arg argSpan
      else
        match env.resolve lim arg argSpan with
        | .ok t => .ok (.app id [t])
        | .error e => .error e
    | some (.Var v) => .ok (.Ctx v)
    | some (.LazyVar outcome) =>
      match outcome with
      | none => .error (.CyclicType span)
      | some (.ok v) => .ok (.Ctx v)
      | some (.error e) => .error e
    | none => .error (.UnresolvedType name span)
  | .Named name args, span =>
    match env.get name with
    | some (.Name id) =>
      match env.resolveArgs lim args with
      | .ok rs => .ok (.app id rs)
      | .error e => .error e
    | some (.Var v) => .ok (.Ctx v)
    | some (.LazyVar outcome) =>
      match outcome with
      | none => .error (.CyclicType span)
      | some (.ok v) => .ok (.Ctx v)
      | some (.error e) => .error e
    | none => .error (.UnresolvedType name span)
  | .Array elem elemSpan, _ =>
    match env.resolve lim elem elemSpan with
    | .ok t => .ok (.app predef.ARRAY [t])
    | .error e => .error e
  | .StaticArray elem elemSpan size, span =>
    match env.resolve lim elem elemSpan with
    | .ok t =>
      match TypeId.array_with_size lim size with
      | some id => .ok (.app id [t])
      | none => .error (.UnsupportedStaticArraySize span)
    | .error e => .error e
  | .Fn params returnType returnSpan, span =>
    match env.resolveArgs lim params with
    | .ok ps =>
      match env.resolve lim returnType returnSpan with
      | .ok r =>
        match TypeId.fn_with_arity lim params.length with
        | some id => .ok (.app id (ps ++ [r]))
        | none => .error (.UnsupportedArity span)
      | .error e => .error e
    | .error e => .error e

/-- Resolve a list of spanned type arguments in order, propagating the
first error (the collect::Result of env.rs). -/
def TypeEnv.resolveArgs (env : TypeEnv) (lim : Limits) :
    AstTypeArgs → LowerResult (List Typ)
  | .nil => .ok []
  | .cons head span tail =>
    match env.resolve lim head span with
    | .ok t =>
      match env.resolveArgs lim tail with
      | .ok ts => .ok (t :: ts)
      | .error e => .error e
    | .error e => .error e

end

/-! ## Resolvability predicates for the totality statement -/

mutual

/-- Every Named node of the type is bound in the environment to an entry
that resolves: an interned id (whose arguments are then checked in turn),
a context variable, or a lazy variable whose forcing succeeds. -/
def leavesBound (env : TypeEnv) : AstType → Bool
  | .Named name args =>
    match env.get name with
    | some (.Name _) => leavesBoundArgs env args
    | some (.Var _) => true
    | some (.LazyVar (some (.ok _))) => true
    | some (.LazyVar _) => false
    | none => false
  | .Array elem _ => leavesBound env elem
  | .StaticArray elem _ _ => leavesBound env elem
  | .Fn params ret _ => leavesBoundArgs env params && leavesBound env ret

/-- leavesBound over a spanned argument list. -/
def leavesBoundArgs (env : TypeEnv) : AstTypeArgs → Bool
  | .nil => true
  | .cons head _ tail => leavesBound env head && leavesBoundArgs env tail

end

mutual

/-- Every static-array size and every function arity of the type is within
the limits. -/
def aritiesOk (lim : Limits) : AstType → Bool
  | .Named _ args => aritiesOkArgs lim args
  | .Array elem _ => aritiesOk lim elem
  | .StaticArray elem _ size =>
    decide (size ≤ lim.MAX_STATIC_ARRAY_SIZE) && aritiesOk lim elem
  | .Fn params ret _ =>
    decide (params.length ≤ lim.MAX_FN_ARITY) && aritiesOkArgs lim params &&
      aritiesOk lim ret

/-- aritiesOk over a spanned argument list. -/
def aritiesOkArgs (lim : Limits) : AstTypeArgs → Bool
  | .nil => true
  | .cons head _ tail => aritiesOk lim head && aritiesOkArgs lim tail

end

/-! ## Operators and the expression AST -/

/-- Unary operators (ast.rs, enum UnOp). -/
inductive UnOp where
  | BitNot
  | Not
  | Neg
deriving DecidableEq, Repr

/-- Operator associativity (ast.rs, enum Assoc). -/
inductive Assoc where
  | Left
  | Right
deriving DecidableEq, Repr

/-- Binary operators (ast.rs, enum BinOp). -/
inductive BinOp where
  | AssignAdd
  | AssignSub
  | AssignMul
  | AssignDiv
  | AssignBitOr
  | AssignBitAnd
  | Or
  | And
  | BitOr
  | BitXor
  | BitAnd
  | Eq
  | Ne
  | Lt
  | Le
  | Gt
  | Ge
  | Add
  | Sub
  | Mul
  | Div
  | Mod
deriving DecidableEq, Repr

/-- BinOp::precedence (ast.rs, lines 1304-1322).  The Rust function returns
a u8; the values all fit far below 2^8, so Nat is used directly. -/
def BinOp.precedence : BinOp → Nat
  | .AssignAdd | .AssignSub | .AssignMul | .AssignDiv | .AssignBitOr
  | .AssignBitAnd => 0
  | .Or => 1
  | .And => 2
  | .BitOr => 3
  | .BitXor => 4
  | .BitAnd => 5
  | .Eq | .Ne => 6
  | .Lt | .Le | .Gt | .Ge => 7
  | .Add | .Sub => 8
  | .Mul | .Div | .Mod => 9

/-- BinOp::assoc (ast.rs, lines 1324-1350). -/
def BinOp.assoc : BinOp → Assoc
  | .AssignAdd | .AssignSub | .AssignMul | .AssignDiv | .AssignBitOr
  | .AssignBitAnd => .Right
  | .Or | .And | .BitOr | .BitXor | .BitAnd | .Eq | .Ne | .Lt | .Le
  | .Gt | .Ge | .Add | .Sub | .Mul | .Div | .Mod => .Left

/-- Literal constants (ast.rs, enum Constant).  The float payloads (f32 and
f64 in Rust) are carried as their lexemes, because floating point is not
shallowly embeddable; no claim inspects them. -/
inductive Constant where
  | String (s : String)
  | CName (s : String)
  | Resource (s : String)
  | TweakDbId (s : String)
  | F32 (lexeme : String)
  | F64 (lexeme : String)
  | I32 (n : Int)
  | I64 (n : Int)
  | U32 (n : Nat)
  | U64 (n : Nat)
  | Bool (b : Bool)
deriving DecidableEq, Repr

/-- Parameter qualifier flags (ast.rs, bitflags ParamQualifiers): the
bitset is modelled as one boolean per flag. -/
structure ParamQualifiers where
  optional : Bool
  out : Bool
  isConst : Bool
deriving DecidableEq, Repr

/-- Array pattern spread mode (ast.rs, enum ArraySpread). -/
inductive ArraySpread where
  | Start
  | End
  | None
deriving DecidableEq, Repr

set_option maxHeartbeats 2000000 in
mutual

/-- Expressions (ast.rs, enum Expr, in the spanned WithSpan form: every
child node is paired with its span). -/
inductive Expr where
  | Ident (name : String)
  | Constant (c : Constant)
  | ArrayLit (elems : List (Expr × Span))
  | InterpolatedString (parts : List StrPart)
  | Assign (lhs rhs : Expr × Span)
  | BinOp (lhs : Expr × Span) (op : BinOp) (rhs : Expr × Span)
  | UnOp (op : UnOp) (expr : Expr × Span)
  | Call (expr : Expr × Span) (typeArgs : List (AstType × Span))
      (args : List (Expr × Span))
  | Member (expr : Expr × Span) (member : String)
  | Index (expr : Expr × Span) (index : Expr × Span)
  | DynCast (expr : Expr × Span) (typ : AstType × Span)
  | New (typ : AstType × Span) (args : List (Expr × Span))
  | Conditional (cond thn els : Expr × Span)
  | Lambda (params : List (Param × Span)) (body : FunctionBody)
  | This
  | Super
  | Null
  | Error

/-- Interpolated string parts (ast.rs, enum StrPart). -/
inductive StrPart where
  | Expr (e : Expr × Span)
  | Str (s : String)

/-- Function bodies (ast.rs, enum FunctionBody). -/
inductive FunctionBody where
  | Block (b : Block)
  | Inline (e : Expr × Span)

/-- Statement blocks (ast.rs, struct Block). -/
inductive Block where
  | mk (stmts : List (Stmt × Span))

/-- Statements (ast.rs, enum Stmt, spanned form). -/
inductive Stmt where
  | Let (name : String × Span) (typ : Option (AstType × Span))
      (value : Option (Expr × Span))
  | Switch (expr : Expr × Span) (cases : List Case)
      (dflt : Option (List (Stmt × Span)))
  | If (blocks : List ConditionalBlock) (els : Option Block)
  | While (b : ConditionalBlock)
  | ForIn (name : String × Span) (iter : Expr × Span) (body : Block)
  | Return (e : Option (Expr × Span))
  | Break
  | Continue
  | Expr (e : Expr × Span)

/-- Switch cases (ast.rs, struct Case). -/
inductive Case where
  | mk (condition : Condition) (body : List (Stmt × Span))

/-- A condition plus a body (ast.rs, struct ConditionalBlock). -/
inductive ConditionalBlock where
  | mk (condition : LetCondition) (body : Block)

/-- Switch case conditions (ast.rs, enum Condition). -/
inductive Condition where
  | Expr (e : Expr × Span)
  | Pattern (p : Pattern × Span)

/-- Conditions of if and while (ast.rs, enum LetCondition). -/
inductive LetCondition where
  | Expr (e : Expr × Span)
  | LetPattern (p : Pattern × Span) (e : Expr × Span)

/-- Patterns (ast.rs, enum Pattern, spanned form). -/
inductive Pattern where
  | Name (n : String × Span)
  | As (inner : Pattern × Span) (typ : AstType × Span)
  | Aggregate (name : String × Span) (fields : List (String × Span × Pattern))
  | Nullable (inner : Pattern × Span)
  | Array (spread : ArraySpread) (pats : List Pattern × Span)

/-- Function parameters (ast.rs, struct Param). -/
inductive Param where
  | mk (name : String) (typ : Option (AstType × Span))
      (qualifiers : ParamQualifiers)

end

/-- Block::single (ast.rs): a block holding exactly one statement. -/
def Block.single (stmt : Stmt × Span) : Block := .mk [stmt]

/-! ## The precedence climber

climb_prec (parser/expr.rs, lines 280-310) consumes a peekable iterator of
(operator, right-operand) pairs; the iterator is modelled as a list that is
threaded through and returned, and the two loops are modelled as mutual
recursion over an explicit fuel argument (the Rust loops terminate because
every inner recursion consumes at least one pair; the fuel is an upper
bound on the loop trip count, and climb_fuel_sufficient below shows that
2*|pairs|+1 fuel always suffices, so the embedding is total in the same
sense as the source). -/

mutual

/-- The outer loop of climb_prec: consume pairs whose operator precedence
is at least min_prec, fold them into BinOp nodes (with the span union of
the operands). -/
def climb_prec (fuel : Nat) (lhs : Expr × Span)
    (it : List (BinOp × (Expr × Span))) (min_prec : Nat) :
    Option ((Expr × Span) × List (BinOp × (Expr × Span))) :=
  match fuel with
  | 0 => none
  | fuel + 1 =>
    match it with
    | [] => some (lhs, [])
    | (op, rhs) :: rest =>
      if op.precedence ≥ min_prec then
        match climb_rhs fuel rhs rest op with
        | some (rhs2, rest2) =>
          climb_prec fuel (.BinOp lhs op rhs2, lhs.2.union rhs2.2) rest2
            min_prec
        | none => none
      else
        some (lhs, it)

/-- The inner loop of climb_prec: while the lookahead operator binds
tighter (or equally for a right-associative operator), extend the right
operand by a recursive climb. -/
def climb_rhs (fuel : Nat) (rhs : Expr × Span)
    (it : List (BinOp × (Expr × Span))) (op : BinOp) :
    Option ((Expr × Span) × List (BinOp × (Expr × Span))) :=
  match fuel with
  | 0 => none
  | fuel + 1 =>
    match it with
    | [] => some (rhs, [])
    | (lookahead, _) :: _ =>
      if lookahead.precedence > op.precedence then
        match climb_prec fuel rhs it (op.precedence + 1) with
        | some (rhs2, it2) => climb_rhs fuel rhs2 it2 op
        | none => none
      else if lookahead.assoc = .Right ∧ lookahead.precedence = op.precedence
      then
        match climb_prec fuel rhs it op.precedence with
        | some (rhs2, it2) => climb_rhs fuel rhs2 it2 op
        | none => none
      else
        some (rhs, it)

end

/-- The precedence table as the specification states it: compound
assignments have precedence 0, and the other operator families have
precedences 1 through 9. -/
def specPrecedence : BinOp → Nat
  | .AssignAdd | .AssignSub | .AssignMul | .AssignDiv | .AssignBitOr
  | .AssignBitAnd => 0
  | .Or => 1
  | .And => 2
  | .BitOr => 3
  | .BitXor => 4
  | .BitAnd => 5
  | .Eq | .Ne => 6
  | .Lt | .Le | .Gt | .Ge => 7
  | .Add | .Sub => 8
  | .Mul | .Div | .Mod => 9

/-- The associativity table as the specification states it: right for
compound assignments, left for everything else. -/
def specAssoc (op : BinOp) : Assoc :=
  if specPrecedence op = 0 then .Right else .Left

mutual

/-- The textbook precedence-climbing reference, written from the
specification wording: consume pairs whose precedence is at least the
current minimum; when the lookahead operator has strictly greater
precedence recurse with minimum op+1, when it has equal precedence and is
right-associative recurse with minimum op, otherwise break. -/
def climbSpec (fuel : Nat) (lhs : Expr × Span)
    (it : List (BinOp × (Expr × Span))) (minPrec : Nat) :
    Option ((Expr × Span) × List (BinOp × (Expr × Span))) :=
  match fuel with
  | 0 => none
  | fuel + 1 =>
    match it with
    | [] => some (lhs, [])
    | (op, rhs) :: rest =>
      if specPrecedence op ≥ minPrec then
        match climbSpecRhs fuel rhs rest op with
        | some (rhs2, rest2) =>
          climbSpec fuel (.BinOp lhs op rhs2, lhs.2.union rhs2.2) rest2
            minPrec
        | none => none
      else
        some (lhs, it)

/-- Inner loop of the textbook reference. -/
def climbSpecRhs (fuel : Nat) (rhs : Expr × Span)
    (it : List (BinOp × (Expr × Span))) (op : BinOp) :
    Option ((Expr × Span) × List (BinOp × (Expr × Span))) :=
  match fuel with
  | 0 => none
  | fuel + 1 =>
    match it with
    | [] => some (rhs, [])
    | (lookahead, _) :: _ =>
      if specPrecedence lookahead > specPrecedence op then
        match climbSpec fuel rhs it (specPrecedence op + 1) with
        | some (rhs2, it2) => climbSpecRhs fuel rhs2 it2 op
        | none => none
      else if specAssoc lookahead = .Right ∧
          specPrecedence lookahead = specPrecedence op then
        match climbSpec fuel rhs it (specPrecedence op) with
        | some (rhs2, it2) => climbSpecRhs fuel rhs2 it2 op
        | none => none
      else
        some (rhs, it)

end

/-! ## Files and position lookup (files.rs)

Sources are modelled as lists of Char; byte offsets use the UTF-8 width of
each character (Char.utf8Size), matching Rust str indexing.  Operations
that can panic in Rust (string slicing outside a char boundary, indexing
lines out of range) return Option, none modelling the panic. -/

/-- Total UTF-8 byte length of a source. -/
def byteLen (s : List Char) : Nat := (s.map Char.utf8Size).sum

/-- str::match_indices applied to a newline (files.rs, File::new): byte
offsets of every newline character, starting from base offset off. -/
def newlineOffsets : List Char → Nat → List Nat
  | [], _ => []
  | c :: rest, off =>
    (if c = '\n' then [off] else []) ++ newlineOffsets rest (off + c.utf8Size)

/-- Whether a byte offset lies on a character boundary of the source. -/
def isCharBoundary : List Char → Nat → Bool
  | _, 0 => true
  | [], _ + 1 => false
  | c :: rest, n + 1 =>
    if c.utf8Size ≤ n + 1 then isCharBoundary rest (n + 1 - c.utf8Size)
    else false

/-- Drop exactly n leading bytes from a source; none when n is not a char
boundary or exceeds the length. -/
def dropBytes : List Char → Nat → Option (List Char)
  | s, 0 => some s
  | [], _ + 1 => none
  | c :: rest, n + 1 =>
    if c.utf8Size ≤ n + 1 then dropBytes rest (n + 1 - c.utf8Size) else none

/-- Take exactly n leading bytes from a source; none when n is not a char
boundary or exceeds the length. -/
def takeBytes : List Char → Nat → Option (List Char)
  | _, 0 => some []
  | [], _ + 1 => none
  | c :: rest, n + 1 =>
    if c.utf8Size ≤ n + 1 then (takeBytes rest (n + 1 - c.utf8Size)).map (c :: ·)
    else none

/-- Modelled from the contract of Rust string range indexing (std, not in
the sources at hand): the substring from byte a to byte b, panicking -
none here - unless a ≤ b ≤ length and both offsets are char boundaries. -/
def str_slice (s : List Char) (a b : Nat) : Option (List Char) :=
  if a ≤ b then (dropBytes s a).bind (fun t => takeBytes t (b - a)) else none

/-- A registered file (files.rs, struct File). -/
structure File where
  path : String
  source : List Char
  lines : List Nat

/-- File::new (files.rs): cache the line-start offsets, one past each
newline character. -/
def File.new (path : String) (source : List Char) : File :=
  { path := path, source := source,
    lines := (newlineOffsets source 0).map (· + 1) }

/-- Modelled from the contract of slice::binary_search on a sorted slice
(std, not in the sources at hand): ok with the index of a matching
element, or error with the insertion point. -/
def binary_search (xs : List Nat) (x : Nat) : Except Nat Nat :=
  if x ∈ xs then .error (List.indexOf x xs) else .ok (xs.countP (· < x))

/-- A resolved source location (files.rs, struct SourceLoc). -/
structure SourceLoc where
  line : Nat
  col : Nat
deriving DecidableEq, Repr

/-- File::line_and_offset (files.rs, lines 150-161).  none models the
panic of lines with line - 1 when line is 0 (usize underflow in debug,
index out of bounds in release) and of an out-of-range index. -/
def File.line_and_offset (f : File) (offset : Nat) : Option (Nat × Nat) :=
  if (f.lines.head?.map (fun p => decide (offset < p))).getD false then
    some (0, 0)
  else
    let line :=
      match binary_search f.lines offset with
      | .error i => i + 1
      | .ok i => i
    if line = 0 then none
    else (f.lines.get? (line - 1)).map (fun lineOffset => (line, lineOffset))

/-- File::lookup (files.rs, lines 124-132): line and column of a byte
offset; the column counts characters between the line start and the
offset. -/
def File.lookup (f : File) (offset : Nat) : Option SourceLoc :=
  (f.line_and_offset offset).bind fun lo =>
    (str_slice f.source lo.2 offset).map fun cs =>
      { line := lo.1, col := cs.length }

/-- File::span_contents (files.rs, lines 134-136). -/
def File.span_contents (f : File) (span : Span) : Option (List Char) :=
  str_slice f.source span.start span.stop

/-! ## The source map (files.rs) -/

/-- The largest value of an i32; push ids beyond it make the source panic
(expect on i32::try_from), modelled as none. -/
def I32_MAX : Nat := 2147483647

/-- The stable front-and-back growable registry (files.rs, struct
StableDeque): two append-only vectors. -/
structure StableDeque (α : Type) where
  front : List α
  back : List α

/-- StableDeque::get (files.rs): negative indices address the front
vector, non-negative ones the back vector. -/
def StableDeque.get {α : Type} (d : StableDeque α) (index : Int) : Option α :=
  if index < 0 then d.front.get? (-index - 1).toNat
  else d.back.get? index.toNat

/-- StableDeque::push_front (files.rs): append to the front vector and
return minus its new length. -/
def StableDeque.push_front {α : Type} (d : StableDeque α) (value : α) :
    StableDeque α × Option Int :=
  let front := d.front ++ [value]
  ({ front := front, back := d.back },
   if front.length ≤ I32_MAX then some (-(front.length : Int)) else none)

/-- StableDeque::push_back (files.rs): append to the back vector and
return its new length minus one. -/
def StableDeque.push_back {α : Type} (d : StableDeque α) (value : α) :
    StableDeque α × Option Int :=
  let back := d.back ++ [value]
  ({ front := d.front, back := back },
   if back.length ≤ I32_MAX then some ((back.length : Int) - 1) else none)

/-- The ordered registry of files (files.rs, struct SourceMap).  FileId is
the signed integer returned by the push operations. -/
structure SourceMap where
  files : StableDeque File

/-- SourceMap::new (files.rs). -/
def SourceMap.new : SourceMap := { files := { front := [], back := [] } }

/-- SourceMap::push_front (files.rs). -/
def SourceMap.push_front (m : SourceMap) (f : File) : SourceMap × Option Int :=
  let r := m.files.push_front f
  ({ files := r.1 }, r.2)

/-- SourceMap::push_back (files.rs). -/
def SourceMap.push_back (m : SourceMap) (f : File) : SourceMap × Option Int :=
  let r := m.files.push_back f
  ({ files := r.1 }, r.2)

/-- SourceMap::get (files.rs). -/
def SourceMap.get (m : SourceMap) (id : Int) : Option File :=
  m.files.get id

/-- One push operation of an interleaving. -/
inductive PushOp where
  | pfront (f : File)
  | pback (f : File)

/-- Apply one push, discarding the returned id. -/
def SourceMap.applyOp (m : SourceMap) : PushOp → SourceMap
  | .pfront f => (m.push_front f).1
  | .pback f => (m.push_back f).1

/-- Apply a sequence of pushes in order. -/
def SourceMap.applyOps (m : SourceMap) (ops : List PushOp) : SourceMap :=
  ops.foldl SourceMap.applyOp m

/-- Whether a push targets the back of the map. -/
def PushOp.isBack : PushOp → Bool
  | .pback _ => true
  | .pfront _ => false

/-- Whether a push targets the front of the map. -/
def PushOp.isFront : PushOp → Bool
  | .pfront _ => true
  | .pback _ => false

/-! ## The local tracker (env.rs, struct Locals) -/

/-- A local id (crate::ir::Local): a variable or a parameter, carrying its
u16 id (kept below 2^16 by the counter). -/
inductive Local where
  | Var (id : Nat)
  | Param (id : Nat)
deriving DecidableEq, Repr

/-- The numeric id of a local. -/
def Local.id : Local → Nat
  | .Var id => id
  | .Param id => id

/-- Modelled from the spec: PolyType (lower/types.rs, not in the sources
at hand) is carried opaquely by the tracker and never inspected. -/
inductive PolyType where
  | mk

/-- An entry of a locals table (crate::ir::LocalInfo).  The Rust field
named local is loc here because local is a Lean keyword. -/
structure LocalInfo where
  loc : Local
  typ : PolyType
  span : Option Span

/-- The u16 wrap-around modulus of the shared counter. -/
def U16_WRAP : Nat := 65536

/-- A locals table (env.rs, struct Locals).  The shared Cell of u16 is
modelled by threading the counter value explicitly through every call. -/
structure Locals where
  locals : List LocalInfo
  depth : Nat

/-- Locals::new (env.rs). -/
def Locals.new (depth : Nat) : Locals := { locals := [], depth := depth }

/-- Locals::add (env.rs, lines 227-238): set the counter to its successor
(u16 arithmetic, hence mod 2^16), push the entry, and return it. -/
def Locals.add (self : Locals) (counter : Nat) (loc : Local)
    (typ : PolyType) (span : Option Span) : Locals × Nat × LocalInfo :=
  let counter2 := (counter + 1) % U16_WRAP
  let info : LocalInfo := { loc := loc, typ := typ, span := span }
  ({ self with locals := self.locals ++ [info] }, counter2, info)

/-- Locals::add_var (env.rs): the minted id is the counter value at the
time of the call. -/
def Locals.add_var (self : Locals) (counter : Nat) (typ : PolyType)
    (span : Span) : Locals × Nat × LocalInfo :=
  self.add counter (.Var counter) typ (some span)

/-- Locals::add_param (env.rs). -/
def Locals.add_param (self : Locals) (counter : Nat) (typ : PolyType)
    (span : Option Span) : Locals × Nat × LocalInfo :=
  self.add counter (.Param counter) typ span

/-- One add call of a compilation unit: which table it targets and what it
adds. -/
inductive AddCall where
  | var (table : Nat) (typ : PolyType) (span : Span)
  | param (table : Nat) (typ : PolyType) (span : Option Span)

/-- The lowering state relevant to local ids: the open tables of one
compilation unit and the shared counter they all use. -/
structure LowerState where
  tables : List Locals
  counter : Nat

/-- Perform one add call against its target table, returning the minted
numeric id. -/
def stepAdd (st : LowerState) : AddCall → LowerState × Nat
  | .var table typ span =>
    let tbl := st.tables.getD table (Locals.new 0)
    let r := tbl.add_var st.counter typ span
    ({ tables := st.tables.set table r.1, counter := r.2.1 }, st.counter)
  | .param table typ span =>
    let tbl := st.tables.getD table (Locals.new 0)
    let r := tbl.add_param st.counter typ span
    ({ tables := st.tables.set table r.1, counter := r.2.1 }, st.counter)

/-- Run a sequence of add calls, collecting the minted ids in order. -/
def runAdds : LowerState → List AddCall → LowerState × List Nat
  | st, [] => (st, [])
  | st, c :: rest =>
    let r := stepAdd st c
    let r2 := runAdds r.1 rest
    (r2.1, r.2 :: r2.2)

/-! ## Closure captures (env.rs, struct Capture) -/

/-- A capture: a local id plus the number of scope levels to traverse
outward to its defining frame (env.rs, struct Capture; depth is u16 in
Rust and only ever decremented with checked_sub, so Nat is faithful). -/
structure Capture where
  captured : Local
  depth : Nat
deriving DecidableEq, Repr

/-- Capture::new (env.rs). -/
def Capture.new (captured : Local) (depth : Nat) : Capture :=
  { captured := captured, depth := depth }

/-- Capture::pop_scope (env.rs, lines 253-256): checked_sub of one from
the depth. -/
def Capture.pop_scope (c : Capture) : Option Capture :=
  match c.depth with
  | 0 => none
  | d + 1 => some (Capture.new c.captured d)

/-- pop_scope applied k times, propagating the drop. -/
def Capture.pop_scopes (c : Capture) : Nat → Option Capture
  | 0 => some c
  | k + 1 => c.pop_scope.bind (fun c2 => c2.pop_scopes k)

/-! ## Lazy type-parameter forcing (utils::Lazy, modelled from the spec)

Modelled from the spec: utils::Lazy (not in the sources at hand) is a
memoised suspension with a currently-being-forced sentinel, stored in an
interior-mutable cell with the three states pending, in-progress and done.
A compilation unit owns one cell per type parameter; the thunk of a
parameter resolves its declared upper bound against the environment being
built, which forces the sibling parameters that the bound mentions, each
at the span where it is mentioned.  A reentrant get finds the cell
in-progress and fails; env.rs (line 134) maps that failure to
Error::CyclicType at the use-site span.  A thunk failure leaves the cell
un-initialised; a success is memoised. -/

namespace LazyForce

/-- The three states of a lazy cell. -/
inductive LazyCell where
  | pending
  | inProgress
  | done (v : CtxVar)

/-- Whether a cell is still pending. -/
def LazyCell.isPending : LazyCell → Bool
  | .pending => true
  | _ => false

/-- The cells of one compilation unit, indexed by type parameter. -/
abbrev LazyState := List LazyCell

/-- Number of pending cells; every nested force strictly decreases it,
which bounds the recursion depth. -/
def pendingCount (st : LazyState) : Nat := st.countP LazyCell.isPending

/-- A cyclic-bound configuration: for each parameter, the sibling
parameters its upper bound forces (in order, each with the span where it
is mentioned), and the context variable its thunk produces on success. -/
structure LazyConfig where
  deps : Nat → List (Nat × Span)
  var : Nat → CtxVar

/-- Run a thunk body with a given forcing step: force every sibling the
bound mentions, in order, mapping a reentrant failure to CyclicType at
the use-site span as TypeEnv::resolve does (env.rs, line 134). -/
def runDepsWith
    (forceFn : Nat → LazyState →
      Option (Except Unit (LowerResult CtxVar) × LazyState)) :
    List (Nat × Span) → LazyState → Option (LowerResult Unit × LazyState)
  | [], st => some (.ok (), st)
  | (j, span) :: rest, st =>
    match forceFn j st with
    | some (.error (), st2) => some (.error (.CyclicType span), st2)
    | some (.ok (.error e), st2) => some (.error e, st2)
    | some (.ok (.ok _), st2) => runDepsWith forceFn rest st2
    | none => none

/-- Lazy::get against the current environment: ok (error ()) models the
reentrancy failure, ok (.ok result) the stored or freshly computed thunk
result.  none is fuel exhaustion; force_sufficient below shows that
pendingCount+1 fuel always suffices, so the embedding is as total as the
source.  A pending cell is marked in progress, its thunk body is run, a
success is memoised as done, and a failure resets the cell to pending. -/
def force (cfg : LazyConfig) :
    Nat → Nat → LazyState →
      Option (Except Unit (LowerResult CtxVar) × LazyState)
  | 0, _, _ => none
  | fuel + 1, i, st =>
    match st.getD i .inProgress with
    | .done v => some (.ok (.ok v), st)
    | .inProgress => some (.error (), st)
    | .pending =>
      match runDepsWith (fun j st2 => force cfg fuel j st2) (cfg.deps i)
          (st.set i .inProgress) with
      | some (.ok _, st2) =>
        some (.ok (.ok (cfg.var i)), st2.set i (.done (cfg.var i)))
      | some (.error e, st2) =>
        some (.ok (.error e), st2.set i .pending)
      | none => none

/-- Run one thunk body with the forcing of the compilation unit. -/
def runDeps (cfg : LazyConfig) (fuel : Nat) :
    List (Nat × Span) → LazyState → Option (LowerResult Unit × LazyState) :=
  runDepsWith (fun j st2 => force cfg fuel j st2)

end LazyForce

/-! ## Bracketed error recovery (modelled from the spec)

Modelled from the spec: the parser is built from chumsky combinators
(parser/expr.rs and parser.rs); the semantics of the recovery combinators
recover_with, via_parser and nested_delimiters live in the chumsky crate,
which is not in the sources at hand.  Following the wording of the
specification, recovery is modelled over a representative token alphabet
by a recursive-descent expression grammar in which every bracketed
sub-grammar is wrapped in a recovery step: when the clean parse of a
region that starts with the matching open bracket fails, the balanced
region is skipped whole - tracking all three bracket pairs - and replaced
by an Expr.Error (for expressions) or a Block holding a single Error
statement (for blocks) spanning the full region, and parsing continues
past the closing bracket. -/

namespace recovery

/-- The token alphabet of the recovery model. -/
inductive Token where
  | LParen
  | RParen
  | LBracket
  | RBracket
  | LBrace
  | RBrace
  | Comma
  | Plus
  | Ident (s : String)
  | Int (n : Int)
deriving DecidableEq, Repr

/-- A spanned token stream. -/
abbrev Tokens := List (Token × Span)

/-- The matching closing bracket of an opening bracket. -/
def closeFor : Token → Option Token
  | .LParen => some .RParen
  | .LBracket => some .RBracket
  | .LBrace => some .RBrace
  | _ => none

/-- Whether a token is a closing bracket. -/
def isClose : Token → Bool
  | .RParen => true
  | .RBracket => true
  | .RBrace => true
  | _ => false

/-- Whether the brackets of a token sequence balance against a stack of
still-open closers. -/
def balancedAux : List Token → List Token → Bool
  | [], [] => true
  | [], _ :: _ => false
  | tok :: rest, stack =>
    match closeFor tok with
    | some c => balancedAux rest (c :: stack)
    | none =>
      if isClose tok then
        match stack with
        | c :: stack2 => if tok = c then balancedAux rest stack2 else false
        | [] => false
      else balancedAux rest stack

/-- Whether the brackets of a token sequence are balanced. -/
def balanced (ts : List Token) : Bool := balancedAux ts []

/-- Skip tokens until the stack of expected closers is exhausted,
accumulating the span of everything skipped; none when a mismatched close
or the end of input is reached first. -/
def skipNested : Tokens → List Token → Span → Option (Span × Tokens)
  | rest, [], acc => some (acc, rest)
  | [], _ :: _, _ => none
  | (tok, sp) :: rest, closer :: stack2, acc =>
    if tok = closer then skipNested rest stack2 (acc.union sp)
    else
      match closeFor tok with
      | some c => skipNested rest (c :: closer :: stack2) (acc.union sp)
      | none =>
        if isClose tok then none
        else skipNested rest (closer :: stack2) (acc.union sp)

/-- Skip one whole balanced bracketed region starting at the head of the
stream, returning its overall span and the stream past its closing
bracket. -/
def skipBalanced (ts : Tokens) : Option (Span × Tokens) :=
  match ts with
  | (tok, sp) :: rest =>
    match closeFor tok with
    | some closer => skipNested rest [closer] sp
    | none => none
  | [] => none

/-- The recovery step for an expression-shaped region: keep a clean parse;
otherwise, when the stream starts with the given open bracket, consume the
balanced region whole and substitute an Expr.Error spanning it. -/
def recoverExpr (p : Tokens → Option ((Expr × Span) × Tokens))
    (openTok : Token) (ts : Tokens) : Option ((Expr × Span) × Tokens) :=
  match p ts with
  | some r => some r
  | none =>
    match ts with
    | (tok, _) :: _ =>
      if tok = openTok then
        (skipBalanced ts).map (fun r => ((Expr.Error, r.1), r.2))
      else none
    | [] => none

/-- The recovery step for a block: keep a clean parse; otherwise, when the
stream starts with an opening brace, consume the balanced region whole and
substitute a block holding a single Error statement spanning it
(parser.rs, block_rec, lines 111-119). -/
def recoverBlock (p : Tokens → Option ((Block × Span) × Tokens))
    (ts : Tokens) : Option ((Block × Span) × Tokens) :=
  match p ts with
  | some r => some r
  | none =>
    match ts with
    | (.LBrace, _) :: _ =>
      (skipBalanced ts).map
        (fun r => ((Block.single (.Expr (Expr.Error, r.1), r.1), r.1), r.2))
    | _ => none

mutual

/-- Atoms without recovery: integer and identifier values, array literals
and parenthesised expressions. -/
def parseAtomCore (fuel : Nat) (ts : Tokens) :
    Option ((Expr × Span) × Tokens) :=
  match fuel with
  | 0 => none
  | fuel + 1 =>
    match ts with
    | (.Int n, sp) :: rest => some ((.Constant (.I32 n), sp), rest)
    | (.Ident s, sp) :: rest => some ((.Ident s, sp), rest)
    | (.LBracket, sp) :: rest =>
      match parseElems fuel rest with
      | some (elems, (.RBracket, sp2) :: rest2) =>
        some ((.ArrayLit elems, sp.union sp2), rest2)
      | _ => none
    | (.LParen, _) :: rest =>
      match parseExpr fuel rest with
      | some (e, (.RParen, _) :: rest2) => some (e, rest2)
      | _ => none
    | _ => none

/-- Array literal elements separated by commas, stopping before the
closing bracket. -/
def parseElems (fuel : Nat) (ts : Tokens) :
    Option (List (Expr × Span) × Tokens) :=
  match fuel with
  | 0 => none
  | fuel + 1 =>
    match ts with
    | (.RBracket, _) :: _ => some ([], ts)
    | _ =>
      match parseExpr fuel ts with
      | some (e, (.Comma, _) :: rest) =>
        (parseElems fuel rest).map (fun r => (e :: r.1, r.2))
      | some (e, rest) => some ([e], rest)
      | none => none

/-- An atom with the parenthesis-level recovery attached (the
recover_with of the atom parser, parser/expr.rs lines 166-176). -/
def parseAtom (fuel : Nat) (ts : Tokens) : Option ((Expr × Span) × Tokens) :=
  match fuel with
  | 0 => none
  | fuel + 1 => recoverExpr (parseAtomCore fuel) .LParen ts

/-- A member-level expression with the bracket-level recovery attached
(the recover_with of the member parser, parser/expr.rs lines 209-217). -/
def parseMember (fuel : Nat) (ts : Tokens) :
    Option ((Expr × Span) × Tokens) :=
  match fuel with
  | 0 => none
  | fuel + 1 => recoverExpr (parseAtom fuel) .LBracket ts

/-- A binary-operator chain folded left over members. -/
def parseSum (fuel : Nat) (lhs : Expr × Span) (ts : Tokens) :
    Option ((Expr × Span) × Tokens) :=
  match fuel with
  | 0 => none
  | fuel + 1 =>
    match ts with
    | (.Plus, _) :: rest =>
      match parseMember fuel rest with
      | some (rhs, rest2) =>
        parseSum fuel (.BinOp lhs .Add rhs, lhs.2.union rhs.2) rest2
      | none => none
    | _ => some (lhs, ts)

/-- A full expression: a member followed by a binary-operator chain. -/
def parseExpr (fuel : Nat) (ts : Tokens) : Option ((Expr × Span) × Tokens) :=
  match fuel with
  | 0 => none
  | fuel + 1 =>
    match parseMember fuel ts with
    | some (lhs, rest) => parseSum fuel lhs rest
    | none => none

/-- Statements of a block: expressions, repeated until one fails to
parse. -/
def parseStmts (fuel : Nat) (ts : Tokens) :
    Option (List (Stmt × Span) × Tokens) :=
  match fuel with
  | 0 => none
  | fuel + 1 =>
    match parseExpr fuel ts with
    | some (e, rest) =>
      (parseStmts fuel rest).map (fun r => ((Stmt.Expr e, e.2) :: r.1, r.2))
    | none => some ([], ts)

end

/-- A brace-delimited block without recovery. -/
def parseBlockCore (fuel : Nat) (ts : Tokens) :
    Option ((Block × Span) × Tokens) :=
  match ts with
  | (.LBrace, sp) :: rest =>
    match parseStmts fuel rest with
    | some (stmts, (.RBrace, sp2) :: rest2) =>
      some ((Block.mk stmts, sp.union sp2), rest2)
    | _ => none
  | _ => none

/-- A block with the brace-level recovery attached (parser.rs,
block_rec). -/
def parseBlock (fuel : Nat) (ts : Tokens) : Option ((Block × Span) × Tokens) :=
  recoverBlock (parseBlockCore fuel) ts

/-- Whole-input expression parse: succeeds only when the stream is
consumed entirely, as the crate-level parse entry points do. -/
def parse (fuel : Nat) (ts : Tokens) : Option (Expr × Span) :=
  match parseExpr fuel ts with
  | some (e, []) => some e
  | _ => none

end recovery

/-! # Theorems -/

/-! ## C1: the ref sugar -/

/-- C1: in every type environment in which the name ref is visible with its
default binding (Name REF), resolving the named type ref applied to exactly
one argument returns exactly the resolution of that argument, and resolving
ref applied to zero or to two-or-more arguments falls through to the
generic path, returning the application of the REF id to the resolutions of
the arguments in order, or the first resolution error. -/
theorem ref_sugar_resolve (env : TypeEnv) (lim : Limits)
    (h : env.get "ref" = some (.Name predef.REF)) :
    (∀ (T : AstType) (argSpan span : Span),
      env.resolve lim (.Named "ref" (.cons T argSpan .nil)) span =
        env.resolve lim T argSpan) ∧
    (∀ (args : AstTypeArgs) (span : Span), args.length ≠ 1 →
      env.resolve lim (.Named "ref" args) span =
        (env.resolveArgs lim args).map (.app predef.REF)) := by
  constructor
  · intro T argSpan span
    simp [TypeEnv.resolve, h]
  · intro args span hlen
    match args with
    | .nil =>
      simp [TypeEnv.resolve, h, Except.map]
      cases env.resolveArgs lim .nil <;> simp
    | .cons a s .nil => exact absurd rfl hlen
    | .cons a s (.cons b t rest) =>
      simp [TypeEnv.resolve, h, Except.map]
      cases env.resolveArgs lim (.cons a s (.cons b t rest)) <;> simp

/-- Witness for C1 at the default environment: ref of array resolves to
the bare array type, and ref of two arguments falls through to the generic
path. -/
theorem ref_sugar_resolve_witness :
    TypeEnv.with_default_types.get "ref" = some (.Name predef.REF) ∧
    TypeEnv.with_default_types.resolve ⟨8, 1024⟩
        (.Named "ref" (.cons (.Named "array" .nil) ⟨4, 9, 0⟩ .nil)) ⟨0, 10, 0⟩ =
      TypeEnv.with_default_types.resolve ⟨8, 1024⟩ (.Named "array" .nil)
        ⟨4, 9, 0⟩ ∧
    TypeEnv.with_default_types.resolve ⟨8, 1024⟩
        (.Named "ref" (.cons (.Named "array" .nil) ⟨4, 9, 0⟩
          (.cons (.Named "wref" .nil) ⟨11, 15, 0⟩ .nil))) ⟨0, 16, 0⟩ =
      (TypeEnv.with_default_types.resolveArgs ⟨8, 1024⟩
          (.cons (.Named "array" .nil) ⟨4, 9, 0⟩
            (.cons (.Named "wref" .nil) ⟨11, 15, 0⟩ .nil))).map
        (.app predef.REF) := by
  refine ⟨rfl, ?_, ?_⟩
  · exact (ref_sugar_resolve TypeEnv.with_default_types ⟨8, 1024⟩ rfl).1
      (.Named "array" .nil) ⟨4, 9, 0⟩ ⟨0, 10, 0⟩
  · exact (ref_sugar_resolve TypeEnv.with_default_types ⟨8, 1024⟩ rfl).2
      (.cons (.Named "array" .nil) ⟨4, 9, 0⟩
        (.cons (.Named "wref" .nil) ⟨11, 15, 0⟩ .nil)) ⟨0, 16, 0⟩ (by decide)

/-! ## C7: captures and pop_scope -/

/-- C7: pop_scope returns none exactly when the depth is zero, otherwise
the same captured local with the depth decreased by one; applying it k
times drops exactly the captures whose depth was less than k. -/
theorem capture_pop_scope :
    (∀ c : Capture, c.pop_scope = none ↔ c.depth = 0) ∧
    (∀ c : Capture, 0 < c.depth →
      c.pop_scope = some (Capture.new c.captured (c.depth - 1))) ∧
    (∀ (k : Nat) (c : Capture),
      c.pop_scopes k =
        if c.depth < k then none
        else some (Capture.new c.captured (c.depth - k))) ∧
    (∀ (k : Nat) (caps : List Capture),
      caps.filterMap (fun c => c.pop_scopes k) =
        (caps.filter (fun c => k ≤ c.depth)).map
          (fun c => Capture.new c.captured (c.depth - k))) := by
  have hiter : ∀ (k : Nat) (c : Capture),
      c.pop_scopes k =
        if c.depth < k then none
        else some (Capture.new c.captured (c.depth - k)) := by
    intro k
    induction k with
    | zero => intro c; simp [Capture.pop_scopes, Capture.new]
    | succ k ih =>
      intro c
      match hc : c.depth with
      | 0 =>
        simp [Capture.pop_scopes, Capture.pop_scope, hc]
      | d + 1 =>
        simp only [Capture.pop_scopes, Capture.pop_scope, hc, Option.some_bind]
        rw [ih]
        simp [Capture.new]
  refine ⟨?_, ?_, hiter, ?_⟩
  · intro c
    match hc : c.depth with
    | 0 => simp [Capture.pop_scope, hc]
    | d + 1 => simp [Capture.pop_scope, hc]
  · intro c hpos
    match hc : c.depth with
    | 0 => omega
    | d + 1 => simp [Capture.pop_scope, hc, Capture.new]
  · intro k caps
    induction caps with
    | nil => simp
    | cons c rest ih =>
      rw [List.filterMap_cons, hiter k c]
      by_cases hk : c.depth < k
      · rw [if_pos hk, List.filter_cons, if_neg (by simpa using by omega)]
        exact ih
      · rw [if_neg hk, List.filter_cons,
          if_pos (by simpa using by omega)]
        simp [ih]

/-- Witness for C7 at depth two: one pop keeps the capture, three pops
drop it. -/
theorem capture_pop_scope_witness :
    (Capture.new (.Var 5) 2).pop_scope = some (Capture.new (.Var 5) 1) ∧
    (Capture.new (.Var 5) 2).pop_scopes 3 = none ∧
    [Capture.new (.Var 5) 2, Capture.new (.Var 6) 0].filterMap
        (fun c => c.pop_scopes 1) =
      [Capture.new (.Var 5) 1] := by
  refine ⟨?_, ?_, ?_⟩
  · exact capture_pop_scope.2.1 (Capture.new (.Var 5) 2) (by decide)
  · rw [capture_pop_scope.2.2.1 3 (Capture.new (.Var 5) 2)]; decide
  · rw [capture_pop_scope.2.2.2 1
      [Capture.new (.Var 5) 2, Capture.new (.Var 6) 0]]
    decide

/-! ## C9 and C10: position lookup and span contents

File::lookup panics on every file that contains no newline: with lines
empty, the guard lines.first().is_some_and(|p| p > offset) is false, the
else branch computes line = 0 from the failed binary search, and
lines[line - 1] underflows (debug) or indexes out of bounds (release).
The claims C9 and C10 promise a defined result for every in-range char
boundary offset, which such files violate. -/

/-- C9 (code bug): the file abc has no newline; offset 1 is a char
boundary within the source, the claim promises SourceLoc line 0 col 1, yet
lookup panics (none in this embedding).  On a file that does contain a
newline the same offset is answered. -/
theorem lookup_panics_on_newline_free_file :
    isCharBoundary "abc".toList 1 = true ∧
    1 ≤ byteLen "abc".toList ∧
    (File.new "test.reds" "abc".toList).lookup 1 = none ∧
    (File.new "test2.reds" "a\nbc".toList).lookup 3 = some ⟨1, 1⟩ := by
  refine ⟨by decide, by decide, ?_, ?_⟩ <;> rfl

/-- C10 (code bug): span_contents follows the string-indexing contract -
the substring under the precondition, a panic outside it (past the end,
or inside a multi-byte character) - but lookup also panics at an offset
satisfying the precondition (end of the newline-free file xy). -/
theorem span_contents_and_lookup_panic_behaviour :
    (File.new "b.reds" "xy".toList).span_contents ⟨0, 2, 0⟩ =
      some "xy".toList ∧
    (File.new "b.reds" "xy".toList).span_contents ⟨1, 3, 0⟩ = none ∧
    (File.new "b.reds" "xy".toList).span_contents ⟨2, 1, 0⟩ = none ∧
    (File.new "c.reds" "é".toList).span_contents ⟨0, 1, 0⟩ = none ∧
    isCharBoundary "xy".toList 2 = true ∧
    2 ≤ byteLen "xy".toList ∧
    (File.new "b.reds" "xy".toList).lookup 2 = none := by
  refine ⟨?_, ?_, ?_, ?_, by decide, by decide, ?_⟩ <;> rfl

/-! ## C6: local ids and the shared counter -/

/-- Each add call mints the current counter value as id and bumps the
counter by one, modulo the u16 wrap. -/
theorem stepAdd_counter (st : LowerState) (c : AddCall) :
    (stepAdd st c).2 = st.counter ∧
    (stepAdd st c).1.counter = (st.counter + 1) % U16_WRAP := by
  cases c <;> exact ⟨rfl, rfl⟩

/-- The ids minted by a run of add calls form the contiguous counter
sequence, modulo the u16 wrap. -/
theorem runAdds_ids (calls : List AddCall) :
    ∀ st : LowerState, st.counter < U16_WRAP →
      (runAdds st calls).2 =
        (List.range calls.length).map (fun k => (st.counter + k) % U16_WRAP) := by
  induction calls with
  | nil => intro st _; rfl
  | cons c rest ih =>
    intro st hlt
    have hstep := stepAdd_counter st c
    have hlt2 : (stepAdd st c).1.counter < U16_WRAP := by
      rw [hstep.2]; exact Nat.mod_lt _ (by decide)
    simp only [runAdds, List.length_cons, List.range_succ_eq_map,
      List.map_cons, List.map_map]
    rw [ih (stepAdd st c).1 hlt2, hstep.1, hstep.2]
    have hhead : (st.counter + 0) % U16_WRAP = st.counter := by
      rw [Nat.add_zero, Nat.mod_eq_of_lt hlt]
    rw [hhead]
    refine congrArg (List.cons st.counter) ?_
    refine List.map_congr_left fun k _ => ?_
    simp only [Function.comp_apply]
    rw [Nat.mod_add_mod]
    congr 1
    omega

/-- C6 (amended): every add_var and add_param call appends exactly one
entry whose id is the shared counter value at the time of the call and
bumps the counter by one (u16 arithmetic) before returning the appended
entry; across the tables sharing one counter the minted ids form the
contiguous counter sequence, and they are unique provided at most 2^16
ids are minted (the u16 counter wraps beyond that). -/
theorem locals_add_contract :
    (∀ (self : Locals) (counter : Nat) (typ : PolyType) (span : Span),
      self.add_var counter typ span =
        ({ self with
            locals := self.locals ++ [⟨.Var counter, typ, some span⟩] },
          (counter + 1) % U16_WRAP, ⟨.Var counter, typ, some span⟩)) ∧
    (∀ (self : Locals) (counter : Nat) (typ : PolyType)
        (span : Option Span),
      self.add_param counter typ span =
        ({ self with
            locals := self.locals ++ [⟨.Param counter, typ, span⟩] },
          (counter + 1) % U16_WRAP, ⟨.Param counter, typ, span⟩)) ∧
    (∀ (st : LowerState) (calls : List AddCall), st.counter < U16_WRAP →
      (runAdds st calls).2 =
        (List.range calls.length).map
          (fun k => (st.counter + k) % U16_WRAP)) ∧
    (∀ (st : LowerState) (calls : List AddCall), st.counter < U16_WRAP →
      calls.length ≤ U16_WRAP → (runAdds st calls).2.Nodup) := by
  refine ⟨fun _ _ _ _ => rfl, fun _ _ _ _ => rfl,
    fun st calls h => runAdds_ids calls st h, ?_⟩
  intro st calls hlt hlen
  rw [runAdds_ids calls st hlt]
  refine (List.nodup_range calls.length).map_on ?_
  intro k1 hk1 k2 hk2 heq
  rw [List.mem_range] at hk1 hk2
  simp only [U16_WRAP] at heq hlt hlen
  omega

/-- C6 counterexample to the unamended uniqueness: 65537 adds through one
shared counter mint the id 0 twice (the 1st and the 65537th call), so the
minted ids are not unique. -/
theorem locals_ids_repeat_after_wrap :
    ¬ (runAdds { tables := [Locals.new 0], counter := 0 }
        (List.replicate 65537 (AddCall.var 0 .mk ⟨0, 0, 0⟩))).2.Nodup := by
  intro hnd
  rw [runAdds_ids _ _ (by decide), List.length_replicate] at hnd
  have h02 : (0 : Nat) = 65536 := by
    refine List.getElem?_inj
      (by rw [List.length_map, List.length_range]; omega) hnd ?_
    simp only [List.getElem?_map]
    rw [List.getElem?_range (by omega), List.getElem?_range (by omega)]
    rfl
  exact absurd h02 (by omega)

/-- Witness for C6 at small inputs: two adds mint ids 0 and 1 and the
sequence is duplicate-free. -/
theorem locals_add_contract_witness :
    (Locals.new 0).add_var 0 .mk ⟨0, 1, 0⟩ =
      ({ locals := [⟨.Var 0, .mk, some ⟨0, 1, 0⟩⟩], depth := 0 },
        1, ⟨.Var 0, .mk, some ⟨0, 1, 0⟩⟩) ∧
    (0 : Nat) < U16_WRAP ∧
    (runAdds { tables := [Locals.new 0], counter := 0 }
        [AddCall.var 0 .mk ⟨0, 1, 0⟩, AddCall.param 0 .mk none]).2 =
      [0, 1] ∧
    (runAdds { tables := [Locals.new 0], counter := 0 }
        [AddCall.var 0 .mk ⟨0, 1, 0⟩, AddCall.param 0 .mk none]).2.Nodup := by
  refine ⟨locals_add_contract.1 (Locals.new 0) 0 .mk ⟨0, 1, 0⟩, by decide,
    ?_, ?_⟩
  · rw [locals_add_contract.2.2.1 _ _ (by decide)]
    rfl
  · exact locals_add_contract.2.2.2 _ _ (by decide) (by decide)

/-! ## C8: source map ids and stability -/

/-- One push only appends: the old front and back vectors are prefixes of
the new ones. -/
theorem applyOp_prefix (m : SourceMap) (op : PushOp) :
    m.files.front <+: (m.applyOp op).files.front ∧
    m.files.back <+: (m.applyOp op).files.back := by
  cases op with
  | pfront f =>
    exact ⟨List.prefix_append _ _, List.prefix_rfl⟩
  | pback f =>
    exact ⟨List.prefix_rfl, List.prefix_append _ _⟩

/-- A sequence of pushes only appends. -/
theorem applyOps_prefix (ops : List PushOp) : ∀ m : SourceMap,
    m.files.front <+: (m.applyOps ops).files.front ∧
    m.files.back <+: (m.applyOps ops).files.back := by
  induction ops with
  | nil => intro m; exact ⟨List.prefix_rfl, List.prefix_rfl⟩
  | cons op rest ih =>
    intro m
    have h1 := applyOp_prefix m op
    have h2 := ih (m.applyOp op)
    exact ⟨h1.1.trans h2.1, h1.2.trans h2.2⟩

/-- Successful indexed reads survive appends. -/
theorem get?_of_prefix {α : Type} {l l2 : List α} (h : l <+: l2) {n : Nat}
    {a : α} (ha : l.get? n = some a) : l2.get? n = some a := by
  obtain ⟨t, rfl⟩ := h
  rw [List.get?_append (List.get?_eq_some.mp ha).1]
  exact ha

/-- C8: push_back mints the consecutive non-negative ids 0, 1, 2, ... (the
id is the number of earlier back pushes) and push_front the consecutive
negative ids -1, -2, ... (minus one more than the number of earlier front
pushes); get on a returned id yields exactly the pushed file, and it still
does after any further pushes - no file is ever removed or replaced. -/
theorem source_map_push_get :
    (∀ (m : SourceMap) (f : File),
      (m.push_back f).1.files.back = m.files.back ++ [f] ∧
      (m.push_back f).1.files.front = m.files.front ∧
      ∀ i, (m.push_back f).2 = some i →
        i = (m.files.back.length : Int) ∧
          (m.push_back f).1.get i = some f) ∧
    (∀ (m : SourceMap) (f : File),
      (m.push_front f).1.files.front = m.files.front ++ [f] ∧
      (m.push_front f).1.files.back = m.files.back ∧
      ∀ i, (m.push_front f).2 = some i →
        i = -((m.files.front.length : Int) + 1) ∧
          (m.push_front f).1.get i = some f) ∧
    (∀ (m : SourceMap) (ops : List PushOp),
      (m.applyOps ops).files.back.length =
        m.files.back.length + ops.countP PushOp.isBack ∧
      (m.applyOps ops).files.front.length =
        m.files.front.length + ops.countP PushOp.isFront) ∧
    (∀ (m : SourceMap) (ops : List PushOp) (i : Int) (f : File),
      m.get i = some f → (m.applyOps ops).get i = some f) := by
  refine ⟨?_, ?_, ?_, ?_⟩
  · intro m f
    refine ⟨rfl, rfl, ?_⟩
    intro i hi
    simp only [SourceMap.push_back, StableDeque.push_back] at hi
    split at hi
    · have hival : i = ((m.files.back ++ [f]).length : Int) - 1 :=
        (Option.some_inj.mp hi).symm
      have hi2 : i = (m.files.back.length : Int) := by
        rw [hival]; simp only [List.length_append, List.length_singleton]
        omega
      refine ⟨hi2, ?_⟩
      show StableDeque.get _ i = some f
      simp only [StableDeque.get, SourceMap.push_back, StableDeque.push_back]
      rw [if_neg (by omega), hi2]
      have htn : ((m.files.back.length : Int)).toNat = m.files.back.length := by
        omega
      rw [htn, List.get?_concat_length]
    · exact Option.noConfusion hi
  · intro m f
    refine ⟨rfl, rfl, ?_⟩
    intro i hi
    simp only [SourceMap.push_front, StableDeque.push_front] at hi
    split at hi
    · have hival : i = -((m.files.front ++ [f]).length : Int) :=
        (Option.some_inj.mp hi).symm
      have hi2 : i = -((m.files.front.length : Int) + 1) := by
        rw [hival]; simp only [List.length_append, List.length_singleton]
        omega
      refine ⟨hi2, ?_⟩
      show StableDeque.get _ i = some f
      simp only [StableDeque.get, SourceMap.push_front, StableDeque.push_front]
      rw [if_pos (by omega), hi2]
      have htn : (-(-((m.files.front.length : Int) + 1)) - 1).toNat =
          m.files.front.length := by omega
      rw [htn, List.get?_concat_length]
    · exact Option.noConfusion hi
  · intro m ops
    induction ops generalizing m with
    | nil => simp [SourceMap.applyOps]
    | cons op rest ih =>
      have hstep : (m.applyOps (op :: rest)) =
          ((m.applyOp op).applyOps rest) := rfl
      rw [hstep]
      obtain ⟨ihb, ihf⟩ := ih (m.applyOp op)
      constructor
      · rw [ihb, List.countP_cons]
        cases op <;>
          simp [SourceMap.applyOp, SourceMap.push_front, SourceMap.push_back,
            StableDeque.push_front, StableDeque.push_back, PushOp.isBack] <;>
          omega
      · rw [ihf, List.countP_cons]
        cases op <;>
          simp [SourceMap.applyOp, SourceMap.push_front, SourceMap.push_back,
            StableDeque.push_front, StableDeque.push_back, PushOp.isFront] <;>
          omega
  · intro m ops i f hget
    obtain ⟨hpf, hpb⟩ := applyOps_prefix ops m
    simp only [SourceMap.get, StableDeque.get] at hget ⊢
    split at hget
    · rw [if_pos (by assumption)]
      exact get?_of_prefix hpf hget
    · rw [if_neg (by assumption)]
      exact get?_of_prefix hpb hget

/-- Witness for C8: pushing one file to the back of the fresh map returns
id 0, a front push then returns id -1, and both ids keep resolving to
their files after further pushes. -/
theorem source_map_push_get_witness :
    (SourceMap.new.push_back (File.new "a" "x".toList)).2 = some 0 ∧
    (SourceMap.new.push_back (File.new "a" "x".toList)).1.get 0 =
      some (File.new "a" "x".toList) ∧
    ((SourceMap.new.push_back (File.new "a" "x".toList)).1.applyOps
        [.pfront (File.new "b" "y".toList),
         .pback (File.new "c" "z".toList)]).get 0 =
      some (File.new "a" "x".toList) := by
  have h1 := (source_map_push_get.1 SourceMap.new
    (File.new "a" "x".toList)).2.2 0 rfl
  refine ⟨rfl, h1.2, ?_⟩
  exact source_map_push_get.2.2.2
    (SourceMap.new.push_back (File.new "a" "x".toList)).1
    [.pfront (File.new "b" "y".toList), .pback (File.new "c" "z".toList)]
    0 (File.new "a" "x".toList) h1.2

/-! ## C3: resolver totality and error kinds -/

mutual

/-- Resolution succeeds on every type whose named leaves are bound (to a
resolvable entry) and whose arities are within the limits. -/
theorem resolve_isOk (env : TypeEnv) (lim : Limits) :
    (T : AstType) → (span : Span) → leavesBound env T = true →
      aritiesOk lim T = true → ∃ t, env.resolve lim T span = .ok t
  | .Named name (.cons arg argSpan .nil), span, hb, ha => by
    simp only [leavesBound] at hb
    simp only [aritiesOk] at ha
    match hget : env.get name with
    | some (.Name id) =>
      rw [hget] at hb
      simp only [leavesBoundArgs, Bool.and_eq_true] at hb
      simp only [aritiesOkArgs, Bool.and_eq_true] at ha
      obtain ⟨t, ht⟩ := resolve_isOk env lim arg argSpan hb.1 ha.1
      by_cases hid : id = predef.REF
      · exact ⟨t, by simp [TypeEnv.resolve, hget, hid, ht]⟩
      · exact ⟨.app id [t], by simp [TypeEnv.resolve, hget, hid, ht]⟩
    | some (.Var v) =>
      exact ⟨.Ctx v, by simp [TypeEnv.resolve, hget]⟩
    | some (.LazyVar outcome) =>
      rw [hget] at hb
      match outcome with
      | some (.ok v) =>
        exact ⟨.Ctx v, by simp [TypeEnv.resolve, hget]⟩
      | some (.error e) => simp at hb
      | none => simp at hb
    | none => rw [hget] at hb; simp at hb
  | .Named name .nil, span, hb, ha => by
    simp only [leavesBound] at hb
    match hget : env.get name with
    | some (.Name id) =>
      exact ⟨.app id [], by simp [TypeEnv.resolve, hget, TypeEnv.resolveArgs]⟩
    | some (.Var v) =>
      exact ⟨.Ctx v, by simp [TypeEnv.resolve, hget]⟩
    | some (.LazyVar outcome) =>
      rw [hget] at hb
      match outcome with
      | some (.ok v) =>
        exact ⟨.Ctx v, by simp [TypeEnv.resolve, hget]⟩
      | some (.error e) => simp at hb
      | none => simp at hb
    | none => rw [hget] at hb; simp at hb
  | .Named name (.cons a s (.cons b t rest)), span, hb, ha => by
    simp only [leavesBound] at hb
    simp only [aritiesOk] at ha
    match hget : env.get name with
    | some (.Name id) =>
      rw [hget] at hb
      obtain ⟨ts, hts⟩ :=
        resolveArgs_isOk env lim (.cons a s (.cons b t rest)) hb ha
      exact ⟨.app id ts, by simp [TypeEnv.resolve, hget, hts]⟩
    | some (.Var v) =>
      exact ⟨.Ctx v, by simp [TypeEnv.resolve, hget]⟩
    | some (.LazyVar outcome) =>
      rw [hget] at hb
      match outcome with
      | some (.ok v) =>
        exact ⟨.Ctx v, by simp [TypeEnv.resolve, hget]⟩
      | some (.error e) => simp at hb
      | none => simp at hb
    | none => rw [hget] at hb; simp at hb
  | .Array elem elemSpan, span, hb, ha => by
    simp only [leavesBound] at hb
    simp only [aritiesOk] at ha
    obtain ⟨t, ht⟩ := resolve_isOk env lim elem elemSpan hb ha
    exact ⟨.app predef.ARRAY [t], by simp [TypeEnv.resolve, ht]⟩
  | .StaticArray elem elemSpan size, span, hb, ha => by
    simp only [leavesBound] at hb
    simp only [aritiesOk, Bool.and_eq_true, decide_eq_true_eq] at ha
    obtain ⟨t, ht⟩ := resolve_isOk env lim elem elemSpan hb ha.2
    refine ⟨.app (.arrayWithSize size) [t], ?_⟩
    simp [TypeEnv.resolve, ht, TypeId.array_with_size, ha.1]
  | .Fn params ret retSpan, span, hb, ha => by
    simp only [leavesBound, Bool.and_eq_true] at hb
    simp only [aritiesOk, Bool.and_eq_true, decide_eq_true_eq] at ha
    obtain ⟨ts, hts⟩ := resolveArgs_isOk env lim params hb.1 ha.1.2
    obtain ⟨t, ht⟩ := resolve_isOk env lim ret retSpan hb.2 ha.2
    refine ⟨.app (.fnType params.length) (ts ++ [t]), ?_⟩
    simp [TypeEnv.resolve, hts, ht, TypeId.fn_with_arity, ha.1.1]

/-- Argument-list resolution succeeds under the same conditions. -/
theorem resolveArgs_isOk (env : TypeEnv) (lim : Limits) :
    (args : AstTypeArgs) → leavesBoundArgs env args = true →
      aritiesOkArgs lim args = true →
      ∃ ts, env.resolveArgs lim args = .ok ts
  | .nil, _, _ => ⟨[], rfl⟩
  | .cons head span tail, hb, ha => by
    simp only [leavesBoundArgs, Bool.and_eq_true] at hb
    simp only [aritiesOkArgs, Bool.and_eq_true] at ha
    obtain ⟨t, ht⟩ := resolve_isOk env lim head span hb.1 ha.1
    obtain ⟨ts, hts⟩ := resolveArgs_isOk env lim tail hb.2 ha.2
    exact ⟨t :: ts, by simp [TypeEnv.resolveArgs, ht, hts]⟩

end

/-- C3: resolve is total - it succeeds on every type whose named leaves
are all bound (to a resolvable entry) and whose arities are within the
limits - and each failure returns its specific error kind: an unbound
Named name yields UnresolvedType with that name and span, an oversized
StaticArray (whose element resolves) yields UnsupportedStaticArraySize,
and a Fn with too many parameters (whose parts all resolve) yields
UnsupportedArity.  The element and parameter conditions reflect the
source, which resolves children before checking the size and arity. -/
theorem resolve_totality_and_errors :
    (∀ (env : TypeEnv) (lim : Limits) (T : AstType) (span : Span),
      leavesBound env T = true → aritiesOk lim T = true →
        ∃ t, env.resolve lim T span = .ok t) ∧
    (∀ (env : TypeEnv) (lim : Limits) (name : String) (args : AstTypeArgs)
        (span : Span),
      env.get name = none →
        env.resolve lim (.Named name args) span =
          .error (.UnresolvedType name span)) ∧
    (∀ (env : TypeEnv) (lim : Limits) (elem : AstType)
        (elemSpan span : Span) (size : Nat) (t : Typ),
      env.resolve lim elem elemSpan = .ok t →
      lim.MAX_STATIC_ARRAY_SIZE < size →
        env.resolve lim (.StaticArray elem elemSpan size) span =
          .error (.UnsupportedStaticArraySize span)) ∧
    (∀ (env : TypeEnv) (lim : Limits) (params : AstTypeArgs)
        (ret : AstType) (retSpan span : Span) (ps : List Typ) (r : Typ),
      env.resolveArgs lim params = .ok ps →
      env.resolve lim ret retSpan = .ok r →
      lim.MAX_FN_ARITY < params.length →
        env.resolve lim (.Fn params ret retSpan) span =
          .error (.UnsupportedArity span)) := by
  refine ⟨fun env lim T span hb ha => resolve_isOk env lim T span hb ha,
    ?_, ?_, ?_⟩
  · intro env lim name args span hget
    match args with
    | .nil => simp [TypeEnv.resolve, hget]
    | .cons a s .nil => simp [TypeEnv.resolve, hget]
    | .cons a s (.cons b t rest) => simp [TypeEnv.resolve, hget]
  · intro env lim elem elemSpan span size t ht hsize
    simp [TypeEnv.resolve, ht, TypeId.array_with_size, Nat.not_le.mpr hsize]
  · intro env lim params ret retSpan span ps r hps hr harity
    simp [TypeEnv.resolve, hps, hr, TypeId.fn_with_arity,
      Nat.not_le.mpr harity]

/-- Witness for C3 with the limits instantiated at 1 and 2: a small
static array resolves, an unbound name, an oversized static array and an
over-arity function type produce their error kinds. -/
theorem resolve_totality_and_errors_witness :
    leavesBound TypeEnv.with_default_types
        (.StaticArray (.Named "wref" .nil) ⟨1, 5, 0⟩ 2) = true ∧
    aritiesOk ⟨1, 2⟩ (.StaticArray (.Named "wref" .nil) ⟨1, 5, 0⟩ 2) =
      true ∧
    (∃ t, TypeEnv.with_default_types.resolve ⟨1, 2⟩
      (.StaticArray (.Named "wref" .nil) ⟨1, 5, 0⟩ 2) ⟨0, 8, 0⟩ = .ok t) ∧
    TypeEnv.with_default_types.get "Foo" = none ∧
    TypeEnv.with_default_types.resolve ⟨1, 2⟩ (.Named "Foo" .nil)
        ⟨0, 3, 0⟩ = .error (.UnresolvedType "Foo" ⟨0, 3, 0⟩) ∧
    TypeEnv.with_default_types.resolve ⟨1, 2⟩
        (.StaticArray (.Named "wref" .nil) ⟨1, 5, 0⟩ 3) ⟨0, 8, 0⟩ =
      .error (.UnsupportedStaticArraySize ⟨0, 8, 0⟩) ∧
    TypeEnv.with_default_types.resolve ⟨1, 2⟩
        (.Fn (.cons (.Named "wref" .nil) ⟨1, 5, 0⟩
          (.cons (.Named "wref" .nil) ⟨7, 11, 0⟩ .nil))
          (.Named "wref" .nil) ⟨15, 19, 0⟩) ⟨0, 19, 0⟩ =
      .error (.UnsupportedArity ⟨0, 19, 0⟩) := by
  refine ⟨by decide, by decide, ?_, rfl, ?_, ?_, ?_⟩
  · exact resolve_totality_and_errors.1 TypeEnv.with_default_types ⟨1, 2⟩
      (.StaticArray (.Named "wref" .nil) ⟨1, 5, 0⟩ 2) ⟨0, 8, 0⟩
      (by decide) (by decide)
  · exact resolve_totality_and_errors.2.1 TypeEnv.with_default_types ⟨1, 2⟩
      "Foo" .nil ⟨0, 3, 0⟩ rfl
  · exact resolve_totality_and_errors.2.2.1 TypeEnv.with_default_types
      ⟨1, 2⟩ (.Named "wref" .nil) ⟨1, 5, 0⟩ ⟨0, 8, 0⟩ 3
      (.app predef.WREF []) rfl (by decide)
  · exact resolve_totality_and_errors.2.2.2 TypeEnv.with_default_types
      ⟨1, 2⟩ (.cons (.Named "wref" .nil) ⟨1, 5, 0⟩
        (.cons (.Named "wref" .nil) ⟨7, 11, 0⟩ .nil))
      (.Named "wref" .nil) ⟨15, 19, 0⟩ ⟨0, 19, 0⟩
      [.app predef.WREF [], .app predef.WREF []] (.app predef.WREF [])
      rfl rfl (by decide)

/-! ## C2: the precedence climber -/

/-- The source operator precedences agree with the table the specification
states. -/
theorem prec_eq : ∀ op : BinOp, op.precedence = specPrecedence op := by
  intro op; cases op <;> rfl

/-- The source associativities agree with the table the specification
states. -/
theorem assoc_eq : ∀ op : BinOp, op.assoc = specAssoc op := by
  intro op; cases op <;> rfl

/-- The climber never grows the pair list. -/
theorem climb_length : ∀ fuel : Nat,
    (∀ lhs it min e rest, climb_prec fuel lhs it min = some (e, rest) →
      rest.length ≤ it.length) ∧
    (∀ rhs it op e rest, climb_rhs fuel rhs it op = some (e, rest) →
      rest.length ≤ it.length) := by
  intro fuel
  induction fuel with
  | zero =>
    constructor
    · intro lhs it min e rest h; exact absurd h (by simp [climb_prec])
    · intro rhs it op e rest h; exact absurd h (by simp [climb_rhs])
  | succ fuel ih =>
    obtain ⟨ihc, ihr⟩ := ih
    constructor
    · intro lhs it min e rest h
      match it with
      | [] =>
        simp only [climb_prec, Option.some_inj, Prod.mk.injEq] at h
        rw [← h.2]
      | (op, rhs) :: rest0 =>
        simp only [climb_prec] at h
        split at h
        · cases hr : climb_rhs fuel rhs rest0 op with
          | none => rw [hr] at h; exact absurd h (by simp)
          | some p =>
            rw [hr] at h
            have h1 := ihr rhs rest0 op p.1 p.2 (by rw [hr])
            have h2 := ihc _ p.2 min e rest h
            simp only [List.length_cons]
            omega
        · rw [Option.some_inj, Prod.mk.injEq] at h
          rw [← h.2]
    · intro rhs it op e rest h
      match it with
      | [] =>
        simp only [climb_rhs, Option.some_inj, Prod.mk.injEq] at h
        rw [← h.2]
      | (la, x) :: t =>
        simp only [climb_rhs] at h
        split at h
        · cases hc : climb_prec fuel rhs ((la, x) :: t) (op.precedence + 1) with
          | none => rw [hc] at h; exact absurd h (by simp)
          | some p =>
            rw [hc] at h
            have h1 := ihc rhs ((la, x) :: t) (op.precedence + 1) p.1 p.2
              (by rw [hc])
            have h2 := ihr p.1 p.2 op e rest h
            omega
        · split at h
          · cases hc : climb_prec fuel rhs ((la, x) :: t) op.precedence with
            | none => rw [hc] at h; exact absurd h (by simp)
            | some p =>
              rw [hc] at h
              have h1 := ihc rhs ((la, x) :: t) op.precedence p.1 p.2
                (by rw [hc])
              have h2 := ihr p.1 p.2 op e rest h
              omega
          · rw [Option.some_inj, Prod.mk.injEq] at h
            rw [← h.2]

/-- When the head operator clears the minimum precedence, the climber
consumes at least one pair. -/
theorem climb_consumes (fuel : Nat) (lhs : Expr × Span) (op0 : BinOp)
    (rhs0 : Expr × Span) (t : List (BinOp × (Expr × Span))) (min : Nat)
    (e : Expr × Span) (rest : List (BinOp × (Expr × Span)))
    (hmin : min ≤ op0.precedence)
    (h : climb_prec fuel lhs ((op0, rhs0) :: t) min = some (e, rest)) :
    rest.length < t.length + 1 := by
  match fuel with
  | 0 => exact absurd h (by simp [climb_prec])
  | fuel + 1 =>
    simp only [climb_prec] at h
    rw [if_pos hmin] at h
    cases hr : climb_rhs fuel rhs0 t op0 with
    | none => rw [hr] at h; exact absurd h (by simp)
    | some p =>
      rw [hr] at h
      have h1 := (climb_length fuel).2 rhs0 t op0 p.1 p.2 (by rw [hr])
      have h2 := (climb_length fuel).1 _ p.2 min e rest h
      omega

/-- Fuel 2n+1 always suffices for a pair list of length n, so the fueled
embedding is total in the same sense as the source loops. -/
theorem climb_fuel_sufficient : ∀ fuel : Nat,
    (∀ lhs it min, 2 * it.length < fuel →
      (climb_prec fuel lhs it min).isSome) ∧
    (∀ rhs it op, 2 * it.length + 1 < fuel →
      (climb_rhs fuel rhs it op).isSome) := by
  intro fuel
  induction fuel with
  | zero =>
    constructor
    · intro lhs it min h; omega
    · intro rhs it op h; omega
  | succ fuel ih =>
    obtain ⟨ihc, ihr⟩ := ih
    constructor
    · intro lhs it min hfuel
      match it with
      | [] => simp [climb_prec]
      | (op, rhs) :: rest0 =>
        simp only [climb_prec]
        split
        · have hr : (climb_rhs fuel rhs rest0 op).isSome := by
            refine ihr rhs rest0 op ?_
            simp only [List.length_cons] at hfuel
            omega
          cases hreq : climb_rhs fuel rhs rest0 op with
          | none => rw [hreq] at hr; exact absurd hr (by simp)
          | some p =>
            have hlen := (climb_length fuel).2 rhs rest0 op p.1 p.2
              (by rw [hreq])
            refine ihc _ p.2 min ?_
            simp only [List.length_cons] at hfuel
            omega
        · simp
    · intro rhs it op hfuel
      match it with
      | [] => simp [climb_rhs]
      | (la, x) :: t =>
        simp only [climb_rhs]
        split
        · rename_i hgt
          have hc : (climb_prec fuel rhs ((la, x) :: t)
              (op.precedence + 1)).isSome := by
            refine ihc rhs ((la, x) :: t) (op.precedence + 1) ?_
            omega
          cases hceq : climb_prec fuel rhs ((la, x) :: t)
              (op.precedence + 1) with
          | none => rw [hceq] at hc; exact absurd hc (by simp)
          | some p =>
            have hlen := climb_consumes fuel rhs la x t (op.precedence + 1)
              p.1 p.2 (by omega) hceq
            refine ihr p.1 p.2 op ?_
            simp only [List.length_cons] at hfuel hlen
            omega
        · split
          · rename_i hne heq
            have hc : (climb_prec fuel rhs ((la, x) :: t)
                op.precedence).isSome := by
              refine ihc rhs ((la, x) :: t) op.precedence ?_
              omega
            cases hceq : climb_prec fuel rhs ((la, x) :: t)
                op.precedence with
            | none => rw [hceq] at hc; exact absurd hc (by simp)
            | some p =>
              have hlen := climb_consumes fuel rhs la x t op.precedence
                p.1 p.2 (by omega) hceq
              refine ihr p.1 p.2 op ?_
              simp only [List.length_cons] at hfuel hlen
              omega
          · simp

/-- The source climber computes exactly what the climber over the
specification's tables computes, at every fuel, operand and minimum
precedence. -/
theorem climb_eq_climbSpec : ∀ fuel : Nat,
    (∀ lhs it min, climb_prec fuel lhs it min = climbSpec fuel lhs it min) ∧
    (∀ rhs it op, climb_rhs fuel rhs it op = climbSpecRhs fuel rhs it op) := by
  intro fuel
  induction fuel with
  | zero => exact ⟨fun _ _ _ => rfl, fun _ _ _ => rfl⟩
  | succ fuel ih =>
    obtain ⟨ihc, ihr⟩ := ih
    constructor
    · intro lhs it min
      match it with
      | [] => rfl
      | (op, rhs) :: rest0 =>
        simp only [climb_prec, climbSpec, prec_eq, ihr, ihc]
    · intro rhs it op
      match it with
      | [] => rfl
      | (la, x) :: t =>
        simp only [climb_rhs, climbSpecRhs, prec_eq, assoc_eq, ihr, ihc]

/-- C2: invoked with minimum precedence 0, the source precedence climber
produces the tree of the textbook algorithm over the specification's
precedence and associativity tables (at every fuel, hence for every finite
pair sequence, for which fuel 2n+1 suffices); in particular the chain
-b + 10 * 23 - 4 / 20 + 2 folds to ((((-b) + (10*23)) - (4/20)) + 2). -/
theorem climber_matches_spec :
    (∀ (lhs : Expr × Span) (it : List (BinOp × (Expr × Span))) (fuel : Nat),
      climb_prec fuel lhs it 0 = climbSpec fuel lhs it 0) ∧
    (∀ (lhs : Expr × Span) (it : List (BinOp × (Expr × Span))),
      (climb_prec (2 * it.length + 1) lhs it 0).isSome) ∧
    climb_prec 11
      (.UnOp .Neg (.Ident "b", ⟨1, 2, 0⟩), ⟨0, 2, 0⟩)
      [(.Add, (.Constant (.I32 10), ⟨5, 7, 0⟩)),
       (.Mul, (.Constant (.I32 23), ⟨10, 12, 0⟩)),
       (.Sub, (.Constant (.I32 4), ⟨13, 14, 0⟩)),
       (.Div, (.Constant (.I32 20), ⟨17, 19, 0⟩)),
       (.Add, (.Constant (.I32 2), ⟨22, 23, 0⟩))] 0 =
    some
      ((.BinOp
          (.BinOp
            (.BinOp
              (.UnOp .Neg (.Ident "b", ⟨1, 2, 0⟩), ⟨0, 2, 0⟩)
              .Add
              (.BinOp (.Constant (.I32 10), ⟨5, 7, 0⟩) .Mul
                (.Constant (.I32 23), ⟨10, 12, 0⟩), ⟨5, 12, 0⟩),
              ⟨0, 12, 0⟩)
            .Sub
            (.BinOp (.Constant (.I32 4), ⟨13, 14, 0⟩) .Div
              (.Constant (.I32 20), ⟨17, 19, 0⟩), ⟨13, 19, 0⟩),
            ⟨0, 19, 0⟩)
          .Add
          (.Constant (.I32 2), ⟨22, 23, 0⟩),
          ⟨0, 23, 0⟩),
        []) := by
  refine ⟨fun lhs it fuel => (climb_eq_climbSpec fuel).1 lhs it 0,
    fun lhs it => (climb_fuel_sufficient (2 * it.length + 1)).1 lhs it 0
      (by omega), ?_⟩
  rfl

/-! ## C5: lazy forcing, memoisation and cycle detection -/

namespace LazyForce

/-- Writing one cell leaves the others unchanged. -/
theorem getD_set_ne {α : Type} (l : List α) (i k : Nat) (v d : α)
    (h : i ≠ k) : (l.set i v).getD k d = l.getD k d := by
  simp [List.getD_eq_getElem?_getD, List.getElem?_set_ne h]

/-- Writing one cell updates exactly it. -/
theorem getD_set_self {α : Type} (l : List α) (i : Nat) (v d : α)
    (h : i < l.length) : (l.set i v).getD i d = v := by
  rw [List.getD_eq_getElem?_getD, List.getElem?_set_eq_of_lt v h]; rfl

/-- How countP changes under one write. -/
theorem countP_set {α : Type} (p : α → Bool) (l : List α) :
    ∀ (i : Nat) (v d : α), i < l.length →
      (l.set i v).countP p + (if p (l.getD i d) then 1 else 0) =
        l.countP p + (if p v then 1 else 0) := by
  induction l with
  | nil => intro i v d h; simp at h
  | cons a t ih =>
    intro i v d h
    match i with
    | 0 =>
      simp only [List.set_cons_zero, List.countP_cons, List.getD_cons_zero]
      omega
    | i + 1 =>
      simp only [List.set_cons_succ, List.countP_cons, List.getD_cons_succ]
      have := ih i v d (by simpa using Nat.lt_of_succ_lt_succ h)
      omega

/-- A cell read as pending really is a stored cell. -/
theorem lt_length_of_getD_pending (st : LazyState) (i : Nat)
    (h : st.getD i .inProgress = .pending) : i < st.length := by
  by_contra hge
  rw [List.getD_eq_getElem?_getD, List.getElem?_eq_none (by omega)] at h
  simp only [Option.getD_none] at h
  exact LazyCell.noConfusion h

/-- A thunk body built from a length-preserving forcing step preserves
the number of cells. -/
theorem runDepsWith_length
    (forceFn : Nat → LazyState →
      Option (Except Unit (LowerResult CtxVar) × LazyState))
    (hF : ∀ j st r st2, forceFn j st = some (r, st2) →
      st2.length = st.length) :
    ∀ (ds : List (Nat × Span)) (st : LazyState) r st2,
      runDepsWith forceFn ds st = some (r, st2) → st2.length = st.length := by
  intro ds
  induction ds with
  | nil =>
    intro st r st2 h
    simp only [runDepsWith, Option.some_inj, Prod.mk.injEq] at h
    rw [← h.2]
  | cons d rest ih =>
    obtain ⟨j, sp⟩ := d
    intro st r st2 h
    simp only [runDepsWith] at h
    cases hf : forceFn j st with
    | none => rw [hf] at h; exact absurd h (by simp)
    | some q =>
      obtain ⟨qr, qst⟩ := q
      rw [hf] at h
      have hq := hF j st qr qst hf
      match hq1 : qr with
      | .error u =>
        simp only [Option.some_inj, Prod.mk.injEq] at h
        rw [← h.2]; exact hq
      | .ok (.error e) =>
        simp only [Option.some_inj, Prod.mk.injEq] at h
        rw [← h.2]; exact hq
      | .ok (.ok v) =>
        simp only at h
        have := ih qst r st2 h
        omega

/-- Forcing never changes the number of cells. -/
theorem force_length : ∀ (fuel : Nat) (cfg : LazyConfig) (i : Nat)
    (st : LazyState) r st2,
    force cfg fuel i st = some (r, st2) → st2.length = st.length := by
  intro fuel
  induction fuel with
  | zero => intro cfg i st r st2 h; exact absurd h (by simp [force])
  | succ fuel ih =>
    intro cfg i st r st2 h
    simp only [force] at h
    match hcell : st.getD i .inProgress with
    | .done v =>
      rw [hcell] at h
      simp only [Option.some_inj, Prod.mk.injEq] at h
      rw [← h.2]
    | .inProgress =>
      rw [hcell] at h
      simp only [Option.some_inj, Prod.mk.injEq] at h
      rw [← h.2]
    | .pending =>
      rw [hcell] at h
      cases hrd : runDepsWith (fun j st2 => force cfg fuel j st2)
          (cfg.deps i) (st.set i .inProgress) with
      | none => rw [hrd] at h; exact absurd h (by simp)
      | some p =>
        obtain ⟨pr, pst⟩ := p
        rw [hrd] at h
        have hlen3 := runDepsWith_length _
          (fun j st3 r3 st4 hf => ih cfg j st3 r3 st4 hf)
          (cfg.deps i) (st.set i .inProgress) pr pst hrd
        rw [List.length_set] at hlen3
        match hp : pr with
        | .ok u =>
          simp only [Option.some_inj, Prod.mk.injEq] at h
          rw [← h.2, List.length_set]
          exact hlen3
        | .error e =>
          simp only [Option.some_inj, Prod.mk.injEq] at h
          rw [← h.2, List.length_set]
          exact hlen3

/-- A thunk body built from a forcing step that keeps in-progress cells
in progress also keeps them in progress. -/
theorem runDepsWith_keeps
    (forceFn : Nat → LazyState →
      Option (Except Unit (LowerResult CtxVar) × LazyState))
    (hF : ∀ j st r st2, forceFn j st = some (r, st2) →
      ∀ k, st.getD k .inProgress = .inProgress →
        st2.getD k .inProgress = .inProgress) :
    ∀ (ds : List (Nat × Span)) (st : LazyState) r st2,
      runDepsWith forceFn ds st = some (r, st2) →
      ∀ k, st.getD k .inProgress = .inProgress →
        st2.getD k .inProgress = .inProgress := by
  intro ds
  induction ds with
  | nil =>
    intro st r st2 h
    simp only [runDepsWith, Option.some_inj, Prod.mk.injEq] at h
    rw [← h.2]; exact fun k hk => hk
  | cons d rest ih =>
    obtain ⟨j, sp⟩ := d
    intro st r st2 h
    simp only [runDepsWith] at h
    cases hf : forceFn j st with
    | none => rw [hf] at h; exact absurd h (by simp)
    | some q =>
      obtain ⟨qr, qst⟩ := q
      rw [hf] at h
      have hq := hF j st qr qst hf
      match hq1 : qr with
      | .error u =>
        simp only [Option.some_inj, Prod.mk.injEq] at h
        rw [← h.2]; exact hq
      | .ok (.error e) =>
        simp only [Option.some_inj, Prod.mk.injEq] at h
        rw [← h.2]; exact hq
      | .ok (.ok v) =>
        simp only at h
        intro k hk
        exact ih qst r st2 h k (hq k hk)

/-- Cells that are in progress when a force starts are still in progress
when it returns: a force only ever writes the pending cells it enters. -/
theorem force_keeps_inProgress : ∀ (fuel : Nat) (cfg : LazyConfig)
    (i : Nat) (st : LazyState) r st2,
    force cfg fuel i st = some (r, st2) →
    ∀ k, st.getD k .inProgress = .inProgress →
      st2.getD k .inProgress = .inProgress := by
  intro fuel
  induction fuel with
  | zero => intro cfg i st r st2 h; exact absurd h (by simp [force])
  | succ fuel ih =>
    intro cfg i st r st2 h
    simp only [force] at h
    match hcell : st.getD i .inProgress with
    | .done v =>
      rw [hcell] at h
      simp only [Option.some_inj, Prod.mk.injEq] at h
      rw [← h.2]; exact fun k hk => hk
    | .inProgress =>
      rw [hcell] at h
      simp only [Option.some_inj, Prod.mk.injEq] at h
      rw [← h.2]; exact fun k hk => hk
    | .pending =>
      rw [hcell] at h
      cases hrd : runDepsWith (fun j st2 => force cfg fuel j st2)
          (cfg.deps i) (st.set i .inProgress) with
      | none => rw [hrd] at h; exact absurd h (by simp)
      | some p =>
        obtain ⟨pr, pst⟩ := p
        rw [hrd] at h
        intro k hk
        have hki : k ≠ i := by
          intro hcontra
          rw [hcontra] at hk
          rw [hk] at hcell
          exact LazyCell.noConfusion hcell
        have hk1 : (st.set i .inProgress).getD k .inProgress =
            .inProgress := by
          rw [getD_set_ne st i k _ _ (fun hc => hki hc.symm)]
          exact hk
        have hk3 := runDepsWith_keeps _
          (fun j st3 r3 st4 hf => ih cfg j st3 r3 st4 hf)
          (cfg.deps i) (st.set i .inProgress) pr pst hrd k hk1
        match hp : pr with
        | .ok u =>
          simp only [Option.some_inj, Prod.mk.injEq] at h
          rw [← h.2, getD_set_ne pst i k _ _ (fun hc => hki hc.symm)]
          exact hk3
        | .error e =>
          simp only [Option.some_inj, Prod.mk.injEq] at h
          rw [← h.2, getD_set_ne pst i k _ _ (fun hc => hki hc.symm)]
          exact hk3

/-- A thunk body built from a forcing step that never creates pending
cells never creates pending cells. -/
theorem runDepsWith_pendingCount
    (forceFn : Nat → LazyState →
      Option (Except Unit (LowerResult CtxVar) × LazyState))
    (hF : ∀ j st r st2, forceFn j st = some (r, st2) →
      pendingCount st2 ≤ pendingCount st) :
    ∀ (ds : List (Nat × Span)) (st : LazyState) r st2,
      runDepsWith forceFn ds st = some (r, st2) →
        pendingCount st2 ≤ pendingCount st := by
  intro ds
  induction ds with
  | nil =>
    intro st r st2 h
    simp only [runDepsWith, Option.some_inj, Prod.mk.injEq] at h
    rw [← h.2]
  | cons d rest ih =>
    obtain ⟨j, sp⟩ := d
    intro st r st2 h
    simp only [runDepsWith] at h
    cases hf : forceFn j st with
    | none => rw [hf] at h; exact absurd h (by simp)
    | some q =>
      obtain ⟨qr, qst⟩ := q
      rw [hf] at h
      have hq := hF j st qr qst hf
      match hq1 : qr with
      | .error u =>
        simp only [Option.some_inj, Prod.mk.injEq] at h
        rw [← h.2]; exact hq
      | .ok (.error e) =>
        simp only [Option.some_inj, Prod.mk.injEq] at h
        rw [← h.2]; exact hq
      | .ok (.ok v) =>
        simp only at h
        exact (ih qst r st2 h).trans hq

/-- Forcing never creates new pending cells. -/
theorem force_pendingCount : ∀ (fuel : Nat) (cfg : LazyConfig) (i : Nat)
    (st : LazyState) r st2,
    force cfg fuel i st = some (r, st2) →
      pendingCount st2 ≤ pendingCount st := by
  intro fuel
  induction fuel with
  | zero => intro cfg i st r st2 h; exact absurd h (by simp [force])
  | succ fuel ih =>
    intro cfg i st r st2 h
    simp only [force] at h
    match hcell : st.getD i .inProgress with
    | .done v =>
      rw [hcell] at h
      simp only [Option.some_inj, Prod.mk.injEq] at h
      rw [← h.2]
    | .inProgress =>
      rw [hcell] at h
      simp only [Option.some_inj, Prod.mk.injEq] at h
      rw [← h.2]
    | .pending =>
      rw [hcell] at h
      have hlt : i < st.length := lt_length_of_getD_pending st i hcell
      have hset : pendingCount (st.set i .inProgress) + 1 =
          pendingCount st := by
        have := countP_set LazyCell.isPending st i .inProgress
          .inProgress hlt
        rw [hcell] at this
        simpa [pendingCount, LazyCell.isPending] using this
      cases hrd : runDepsWith (fun j st2 => force cfg fuel j st2)
          (cfg.deps i) (st.set i .inProgress) with
      | none => rw [hrd] at h; exact absurd h (by simp)
      | some p =>
        obtain ⟨pr, pst⟩ := p
        rw [hrd] at h
        have hmono := runDepsWith_pendingCount _
          (fun j st3 r3 st4 hf => ih cfg j st3 r3 st4 hf)
          (cfg.deps i) (st.set i .inProgress) pr pst hrd
        have hinP : pst.getD i .inProgress = .inProgress := by
          refine runDepsWith_keeps _
            (fun j st3 r3 st4 hf => force_keeps_inProgress fuel cfg j
              st3 r3 st4 hf)
            (cfg.deps i) (st.set i .inProgress) pr pst hrd i ?_
          exact getD_set_self st i _ _ hlt
        have hlt2 : i < pst.length := by
          have := runDepsWith_length _
            (fun j st3 r3 st4 hf => force_length fuel cfg j st3 r3 st4 hf)
            (cfg.deps i) (st.set i .inProgress) pr pst hrd
          rw [List.length_set] at this
          omega
        match hp : pr with
        | .ok u =>
          simp only [Option.some_inj, Prod.mk.injEq] at h
          rw [← h.2]
          have := countP_set LazyCell.isPending pst i (.done (cfg.var i))
            .inProgress hlt2
          rw [hinP] at this
          simp [pendingCount, LazyCell.isPending] at this hmono hset ⊢
          omega
        | .error e =>
          simp only [Option.some_inj, Prod.mk.injEq] at h
          rw [← h.2]
          have := countP_set LazyCell.isPending pst i .pending
            .inProgress hlt2
          rw [hinP] at this
          simp [pendingCount, LazyCell.isPending] at this hmono hset ⊢
          omega

/-- A thunk body whose forcing step succeeds below a pending bound and is
monotone succeeds. -/
theorem runDepsWith_isSome
    (forceFn : Nat → LazyState →
      Option (Except Unit (LowerResult CtxVar) × LazyState)) (n : Nat)
    (hFsome : ∀ (j : Nat) (st2 : LazyState), pendingCount st2 ≤ n →
      (forceFn j st2).isSome)
    (hFmono : ∀ j st2 r st3, forceFn j st2 = some (r, st3) →
      pendingCount st3 ≤ pendingCount st2) :
    ∀ (ds : List (Nat × Span)) (st : LazyState), pendingCount st ≤ n →
      (runDepsWith forceFn ds st).isSome := by
  intro ds
  induction ds with
  | nil => intro st hlt; simp [runDepsWith]
  | cons d rest ih =>
    obtain ⟨j, sp⟩ := d
    intro st hlt
    simp only [runDepsWith]
    have hf := hFsome j st hlt
    cases hfeq : forceFn j st with
    | none => rw [hfeq] at hf; exact absurd hf (by simp)
    | some q =>
      obtain ⟨qr, qst⟩ := q
      have hmono := hFmono j st qr qst hfeq
      match qr with
      | .error u => rfl
      | .ok (.error e) => rfl
      | .ok (.ok v) => exact ih qst (by omega)

/-- Fuel pendingCount+1 always suffices: every nested force enters a
pending cell and marks it in progress first, so the nesting depth is
bounded by the number of pending cells - forcing terminates. -/
theorem force_sufficient : ∀ (fuel : Nat) (cfg : LazyConfig) (i : Nat)
    (st : LazyState), pendingCount st < fuel →
      (force cfg fuel i st).isSome := by
  intro fuel
  induction fuel with
  | zero => intro cfg i st h; omega
  | succ fuel ih =>
    intro cfg i st hlt
    cases hcell : st.getD i .inProgress with
    | done v =>
      simp only [force]
      rw [hcell]
      rfl
    | inProgress =>
      simp only [force]
      rw [hcell]
      rfl
    | pending =>
      simp only [force]
      rw [hcell]
      have hlen : i < st.length := lt_length_of_getD_pending st i hcell
      have hset : pendingCount (st.set i .inProgress) + 1 =
          pendingCount st := by
        have := countP_set LazyCell.isPending st i .inProgress
          .inProgress hlen
        rw [hcell] at this
        simpa [pendingCount, LazyCell.isPending] using this
      have hrd := runDepsWith_isSome (fun j st2 => force cfg fuel j st2)
        (pendingCount (st.set i .inProgress))
        (fun j st2 hle => ih cfg j st2 (by omega))
        (fun j st2 r st3 hf => force_pendingCount fuel cfg j st2 r st3 hf)
        (cfg.deps i) (st.set i .inProgress) (Nat.le_refl _)
      cases hrdeq : runDepsWith (fun j st2 => force cfg fuel j st2)
          (cfg.deps i) (st.set i .inProgress) with
      | none => rw [hrdeq] at hrd; exact absurd hrd (by simp)
      | some p =>
        obtain ⟨pr, pst⟩ := p
        cases pr with
        | ok u => rfl
        | error e => rfl

end LazyForce

/-- C5: forcing a lazy type parameter terminates - fuel bounded by the
number of pending cells plus one always suffices; a reentrant force (a
cell found in progress, as with cyclic bounds) reports CyclicType at the
use-site span and leaves the state untouched; a successful force memoises
its result, so every later force of the same cell returns the same
context variable and the same state; and the two-parameter cyclic
configuration returns CyclicType instead of looping, leaving both cells
un-initialised for a later retry. -/
theorem lazy_force_contract :
    (∀ (cfg : LazyForce.LazyConfig) (fuel i : Nat)
        (st : LazyForce.LazyState) (span : Span)
        (rest : List (Nat × Span)),
      st.getD i .inProgress = .inProgress → 1 ≤ fuel →
        LazyForce.runDeps cfg fuel ((i, span) :: rest) st =
          some (.error (.CyclicType span), st)) ∧
    (∀ (cfg : LazyForce.LazyConfig) (fuel i : Nat)
        (st st2 : LazyForce.LazyState) (v : CtxVar),
      LazyForce.force cfg fuel i st = some (.ok (.ok v), st2) →
        st2.getD i .inProgress = .done v ∧
        ∀ fuel2 : Nat, 1 ≤ fuel2 →
          LazyForce.force cfg fuel2 i st2 = some (.ok (.ok v), st2)) ∧
    (∀ (cfg : LazyForce.LazyConfig) (i : Nat) (st : LazyForce.LazyState),
      (LazyForce.force cfg (LazyForce.pendingCount st + 1) i st).isSome) ∧
    (LazyForce.force
        { deps := fun i => if i = 0 then [(1, ⟨10, 11, 0⟩)]
            else [(0, ⟨20, 21, 0⟩)],
          var := fun i =>
            .mk (if i = 0 then "A" else "B") .Invariant none none }
        3 0 [.pending, .pending] =
      some (.ok (.error (.CyclicType ⟨20, 21, 0⟩)),
        [.pending, .pending])) := by
  refine ⟨?_, ?_, ?_, ?_⟩
  · intro cfg fuel i st span rest hcell hfuel
    obtain ⟨f, rfl⟩ : ∃ f, fuel = f + 1 := ⟨fuel - 1, by omega⟩
    simp only [LazyForce.runDeps, LazyForce.runDepsWith, LazyForce.force]
    rw [hcell]
  · intro cfg fuel i st st2 v h
    have hdone : st2.getD i .inProgress = .done v := by
      match fuel with
      | 0 => exact absurd h (by simp [LazyForce.force])
      | fuel + 1 =>
        simp only [LazyForce.force] at h
        match hcell : st.getD i .inProgress with
        | .done w =>
          rw [hcell] at h
          simp only [Option.some_inj, Prod.mk.injEq, Except.ok.injEq] at h
          rw [← h.2, hcell, h.1]
        | .inProgress =>
          rw [hcell] at h
          simp at h
        | .pending =>
          rw [hcell] at h
          have hlen : i < st.length :=
            LazyForce.lt_length_of_getD_pending st i hcell
          cases hrd : LazyForce.runDepsWith
              (fun j st2 => LazyForce.force cfg fuel j st2) (cfg.deps i)
              (st.set i .inProgress) with
          | none => rw [hrd] at h; exact absurd h (by simp)
          | some p =>
            obtain ⟨pr, pst⟩ := p
            rw [hrd] at h
            have hlen2 : i < pst.length := by
              have := LazyForce.runDepsWith_length _
                (fun j st3 r3 st4 hf =>
                  LazyForce.force_length fuel cfg j st3 r3 st4 hf)
                (cfg.deps i) (st.set i .inProgress) pr pst hrd
              rw [List.length_set] at this
              omega
            match hp : pr with
            | .ok u =>
              simp only [Option.some_inj, Prod.mk.injEq,
                Except.ok.injEq] at h
              rw [← h.2, ← h.1]
              exact LazyForce.getD_set_self pst i _ _ hlen2
            | .error e =>
              simp at h
    refine ⟨hdone, ?_⟩
    intro fuel2 hfuel2
    obtain ⟨f, rfl⟩ : ∃ f, fuel2 = f + 1 := ⟨fuel2 - 1, by omega⟩
    simp only [LazyForce.force]
    rw [hdone]
  · intro cfg i st
    exact LazyForce.force_sufficient (LazyForce.pendingCount st + 1)
      cfg i st (by omega)
  · rfl

/-- Witness for C5: a one-cell in-progress state reports CyclicType at
the use-site span, a one-cell pending configuration forces to its
variable and memoises it, and the termination bound applies to the fresh
two-cell cyclic state. -/
theorem lazy_force_contract_witness :
    LazyForce.runDeps
        { deps := fun _ => [], var := fun _ => .mk "A" .Invariant none none }
        1 [(0, ⟨3, 4, 0⟩)] [.inProgress] =
      some (.error (.CyclicType ⟨3, 4, 0⟩), [.inProgress]) ∧
    LazyForce.force
        { deps := fun _ => [], var := fun _ => .mk "A" .Invariant none none }
        1 0 [.pending] =
      some (.ok (.ok (.mk "A" .Invariant none none)),
        [.done (.mk "A" .Invariant none none)]) ∧
    List.getD [LazyForce.LazyCell.done (.mk "A" .Invariant none none)] 0
        .inProgress = .done (.mk "A" .Invariant none none) ∧
    LazyForce.force
        { deps := fun _ => [], var := fun _ => .mk "A" .Invariant none none }
        1 0 [.done (.mk "A" .Invariant none none)] =
      some (.ok (.ok (.mk "A" .Invariant none none)),
        [.done (.mk "A" .Invariant none none)]) ∧
    (LazyForce.force
      { deps := fun i => if i = 0 then [(1, ⟨10, 11, 0⟩)]
          else [(0, ⟨20, 21, 0⟩)],
        var := fun i =>
          .mk (if i = 0 then "A" else "B") .Invariant none none }
      (LazyForce.pendingCount [.pending, .pending] + 1)
      0 [.pending, .pending]).isSome := by
  have hmemo := lazy_force_contract.2.1
    { deps := fun _ => [], var := fun _ => .mk "A" .Invariant none none }
    1 0 [.pending] [.done (.mk "A" .Invariant none none)]
    (.mk "A" .Invariant none none) rfl
  refine ⟨?_, rfl, hmemo.1, hmemo.2 1 (by decide), ?_⟩
  · exact lazy_force_contract.1
      { deps := fun _ => [], var := fun _ => .mk "A" .Invariant none none }
      1 0 [.inProgress] ⟨3, 4, 0⟩ [] rfl (by decide)
  · exact lazy_force_contract.2.2.1
      { deps := fun i => if i = 0 then [(1, ⟨10, 11, 0⟩)]
          else [(0, ⟨20, 21, 0⟩)],
        var := fun i =>
          .mk (if i = 0 then "A" else "B") .Invariant none none }
      0 [.pending, .pending]

/-! ## C4: bracketed error recovery -/

namespace recovery

/-- An opening bracket is not a closing bracket. -/
theorem closeFor_not_isClose (tok c : Token) (h : closeFor tok = some c) :
    isClose tok = false := by
  cases tok <;> simp_all [closeFor, isClose]

/-- The matching closer of an opening bracket is a closing bracket. -/
theorem closeFor_isClose (tok c : Token) (h : closeFor tok = some c) :
    isClose c = true := by
  cases tok <;> simp only [closeFor, Option.some_inj,
    reduceCtorEq] at h <;> rw [← h] <;> rfl

/-- Skipping to the closing bracket succeeds whenever the remaining
tokens balance the stack of still-open closers. -/
theorem skipNested_isSome : ∀ (ts : Tokens) (stack : List Token)
    (acc : Span), (∀ c ∈ stack, isClose c = true) →
    balancedAux (ts.map Prod.fst) stack = true →
    (skipNested ts stack acc).isSome := by
  intro ts
  induction ts with
  | nil =>
    intro stack acc hstack hbal
    match stack with
    | [] => simp [skipNested]
    | c :: s2 => simp [balancedAux] at hbal
  | cons t rest ih =>
    obtain ⟨tok, sp⟩ := t
    intro stack acc hstack hbal
    match stack with
    | [] => simp [skipNested]
    | closer :: s2 =>
      simp only [List.map_cons, balancedAux] at hbal
      have hclose : isClose closer = true := hstack closer (by simp)
      cases hcf : closeFor tok with
      | some c =>
        rw [hcf] at hbal
        have htokne : tok ≠ closer := by
          intro hcontra
          rw [← hcontra] at hclose
          rw [closeFor_not_isClose tok c hcf] at hclose
          exact Bool.noConfusion hclose
        simp only [skipNested, if_neg htokne, hcf]
        refine ih (c :: closer :: s2) (acc.union sp) ?_ hbal
        intro x hx
        rcases List.mem_cons.mp hx with hx1 | hx2
        · rw [hx1]; exact closeFor_isClose tok c hcf
        · exact hstack x hx2
      | none =>
        rw [hcf] at hbal
        cases hic : isClose tok with
        | true =>
          rw [hic] at hbal
          simp only [if_true] at hbal
          by_cases htc : tok = closer
          · subst htc
            simp only [skipNested, if_pos rfl]
            rw [if_pos rfl] at hbal
            exact ih s2 (acc.union sp) (fun x hx => hstack x (by simp [hx]))
              hbal
          · rw [if_neg htc] at hbal
            exact Bool.noConfusion hbal
        | false =>
          rw [hic] at hbal
          simp only [if_false] at hbal
          have htokne : tok ≠ closer := by
            intro hcontra
            rw [← hcontra] at hclose
            rw [hic] at hclose
            exact Bool.noConfusion hclose
          simp only [skipNested, if_neg htokne, hcf, hic]
          exact ih (closer :: s2) (acc.union sp) hstack hbal

end recovery

/-- C4 counterexample: the claim promises Some for every balanced token
stream, but a stream whose failure is not inside a bracketed region has
no recovery point: a lone + is balanced yet the parse returns none (as
the crate-level output contract (None, errors) of the specification
itself allows). -/
theorem balanced_stream_parse_none :
    recovery.balanced [recovery.Token.Plus] = true ∧
    recovery.parse 9 [(recovery.Token.Plus, ⟨0, 1, 0⟩)] = none :=
  ⟨rfl, rfl⟩

/-- C4 (amended): a bracketed region that parses cleanly is untouched by
the recovery step; a bracketed region whose clean parse fails is
substituted whole - an Expr.Error (or a block holding one Error
statement) spanning the full region - and parsing continues past the
closing bracket, which exists whenever the stream's brackets are
balanced; the expression and block grammars attach exactly these recovery
steps. -/
theorem bracket_recovery_contract :
    (∀ (p : recovery.Tokens → Option ((Expr × Span) × recovery.Tokens))
        (openTok : recovery.Token) (ts : recovery.Tokens)
        (r : (Expr × Span) × recovery.Tokens),
      p ts = some r → recovery.recoverExpr p openTok ts = some r) ∧
    (∀ (p : recovery.Tokens → Option ((Expr × Span) × recovery.Tokens))
        (openTok : recovery.Token) (sp rsp : Span)
        (rest rest2 : recovery.Tokens),
      p ((openTok, sp) :: rest) = none →
      recovery.skipBalanced ((openTok, sp) :: rest) = some (rsp, rest2) →
        recovery.recoverExpr p openTok ((openTok, sp) :: rest) =
          some ((Expr.Error, rsp), rest2)) ∧
    (∀ (p : recovery.Tokens → Option ((Block × Span) × recovery.Tokens))
        (ts : recovery.Tokens) (r : (Block × Span) × recovery.Tokens),
      p ts = some r → recovery.recoverBlock p ts = some r) ∧
    (∀ (p : recovery.Tokens → Option ((Block × Span) × recovery.Tokens))
        (sp rsp : Span) (rest rest2 : recovery.Tokens),
      p ((.LBrace, sp) :: rest) = none →
      recovery.skipBalanced ((.LBrace, sp) :: rest) = some (rsp, rest2) →
        recovery.recoverBlock p ((.LBrace, sp) :: rest) =
          some ((Block.single (.Expr (Expr.Error, rsp), rsp), rsp), rest2)) ∧
    (∀ (tok : recovery.Token) (sp : Span) (rest : recovery.Tokens)
        (closer : recovery.Token),
      recovery.closeFor tok = some closer →
      recovery.balanced (((tok, sp) :: rest).map Prod.fst) = true →
        (recovery.skipBalanced ((tok, sp) :: rest)).isSome) ∧
    (∀ (fuel : Nat) (ts : recovery.Tokens),
      recovery.parseAtom (fuel + 1) ts =
        recovery.recoverExpr (recovery.parseAtomCore fuel) .LParen ts ∧
      recovery.parseMember (fuel + 1) ts =
        recovery.recoverExpr (recovery.parseAtom fuel) .LBracket ts ∧
      recovery.parseBlock fuel ts =
        recovery.recoverBlock (recovery.parseBlockCore fuel) ts) := by
  refine ⟨?_, ?_, ?_, ?_, ?_, ?_⟩
  · intro p openTok ts r h
    simp [recovery.recoverExpr, h]
  · intro p openTok sp rsp rest rest2 hp hskip
    simp [recovery.recoverExpr, hp, hskip]
  · intro p ts r h
    simp [recovery.recoverBlock, h]
  · intro p sp rsp rest rest2 hp hskip
    simp [recovery.recoverBlock, hp, hskip]
  · intro tok sp rest closer hcf hbal
    simp only [recovery.skipBalanced, hcf]
    simp only [recovery.balanced, List.map_cons, recovery.balancedAux,
      hcf] at hbal
    refine recovery.skipNested_isSome rest [closer] sp ?_ hbal
    intro x hx
    rw [List.mem_singleton.mp hx]
    exact recovery.closeFor_isClose tok closer hcf
  · intro fuel ts
    exact ⟨rfl, rfl, rfl⟩

/-- Witness for C4: an intact atom passes recovery unchanged; the
malformed regions ( + ) and { + } become an Error expression and an
Error block spanning the full region with parsing resuming past the
close; and the balanced region head guarantees a skip point. -/
theorem bracket_recovery_contract_witness :
    recovery.recoverExpr (recovery.parseAtomCore 3) .LParen
        [(.Int 1, ⟨0, 1, 0⟩)] =
      some ((Expr.Constant (.I32 1), ⟨0, 1, 0⟩), []) ∧
    recovery.recoverExpr (recovery.parseAtomCore 3) .LParen
        [(.LParen, ⟨0, 1, 0⟩), (.Plus, ⟨1, 2, 0⟩), (.RParen, ⟨2, 3, 0⟩),
         (.Int 7, ⟨4, 5, 0⟩)] =
      some ((Expr.Error, ⟨0, 3, 0⟩), [(.Int 7, ⟨4, 5, 0⟩)]) ∧
    recovery.recoverBlock (recovery.parseBlockCore 3)
        [(.LBrace, ⟨0, 1, 0⟩), (.Plus, ⟨1, 2, 0⟩), (.RBrace, ⟨2, 3, 0⟩)] =
      some ((Block.single (.Expr (Expr.Error, ⟨0, 3, 0⟩), ⟨0, 3, 0⟩),
        ⟨0, 3, 0⟩), []) ∧
    (recovery.skipBalanced
      [(recovery.Token.LParen, ⟨0, 1, 0⟩), (.RParen, ⟨1, 2, 0⟩)]).isSome := by
  refine ⟨?_, ?_, ?_, ?_⟩
  · exact bracket_recovery_contract.1 (recovery.parseAtomCore 3) .LParen
      [(.Int 1, ⟨0, 1, 0⟩)] ((Expr.Constant (.I32 1), ⟨0, 1, 0⟩), []) rfl
  · exact bracket_recovery_contract.2.1 (recovery.parseAtomCore 3) .LParen
      ⟨0, 1, 0⟩ ⟨0, 3, 0⟩
      [(.Plus, ⟨1, 2, 0⟩), (.RParen, ⟨2, 3, 0⟩), (.Int 7, ⟨4, 5, 0⟩)]
      [(.Int 7, ⟨4, 5, 0⟩)] rfl rfl
  · exact bracket_recovery_contract.2.2.2.1 (recovery.parseBlockCore 3)
      ⟨0, 1, 0⟩ ⟨0, 3, 0⟩ [(.Plus, ⟨1, 2, 0⟩), (.RBrace, ⟨2, 3, 0⟩)] []
      rfl rfl
  · exact bracket_recovery_contract.2.2.2.2.1 .LParen ⟨0, 1, 0⟩
      [(.RParen, ⟨1, 2, 0⟩)] .RParen rfl rfl

end Redscript
